import Mathlib

/-!
Verification development for the KWDB time-series storage engine (kwdbts2):
a shallow embedding of the metrics-iterator layer (`kwdbts2/engine/iterator.cpp`),
the segment-table block layout (`kwdbts2/mmap/include/mmap/MMapSegmentTable.h`)
and the entity-group delete path (`kwdbts2/storage/src/ts_table.cpp`),
together with theorems about the aggregate/raw iterator equivalences, the
first/last short-circuit, tombstone deletion and the on-disk block layout.

Machine integers are modelled as `Int` (timestamps are int64 microseconds);
overflow of a SUM accumulator is modelled by an explicit native-range check.
`double` values appearing in SUM promotion are modelled by their exact integer
value (every concrete value used below is exactly representable in an IEEE
double).  Fallible operations return a status component mirroring `KStatus`.
-/

namespace KwdbTs

/-- Mirrors the `KStatus` status enum used by the storage API (`SUCCESS` / `FAIL`). -/
inductive KStatus
  | SUCCESS
  | FAIL
  deriving DecidableEq

/-- The fixed-width column datatypes relevant to aggregation
    (subset of the source `DATATYPE` enum). -/
inductive DATATYPE
  | INT8
  | INT16
  | INT32
  | INT64
  | FLOAT
  | DOUBLE
  deriving DecidableEq

/-- Aggregation function kinds (subset of the source `Sumfunctype` enum). -/
inductive Sumfunctype
  | MIN
  | MAX
  | SUM
  | COUNT
  | FIRST
  | LAST
  | FIRST_ROW
  | LAST_ROW
  | FIRSTTS
  | LASTTS
  | FIRSTROWTS
  | LASTROWTS
  deriving DecidableEq

/-- A requested timestamp span.  Fields mirror `KwTsSpan\x7bbegin, end\x7d`
    (both bounds inclusive); `end` is a Lean keyword so the fields are renamed. -/
structure KwTsSpan where
  tsBegin : Int
  tsEnd : Int
  deriving DecidableEq

/-- Modelled from the spec: `checkIfTsInSpan` (declared in the iterator header,
    which is not part of the sampled sources) holds when a single timestamp lies
    inside one of the requested spans; the source code uses inclusive comparisons. -/
def checkIfTsInSpan (spans : List KwTsSpan) (ts : Int) : Bool :=
  spans.any fun s => decide (s.tsBegin ≤ ts) && decide (ts ≤ s.tsEnd)

/-- Modelled from the spec: `isTimestampWithinSpans` (iterator header, not in the
    sampled sources) holds when the whole interval `[mn, mx]` lies inside one of
    the requested spans ("both `min_ts` and `max_ts` lie inside one of
    `ts_spans`", with inclusive comparisons). -/
def isTimestampWithinSpans (spans : List KwTsSpan) (mn mx : Int) : Bool :=
  spans.any fun s => decide (s.tsBegin ≤ mn) && decide (mx ≤ s.tsEnd)

/-- Modelled from the spec: `isTimestampInSpans` (iterator header, not in the
    sampled sources) holds when the interval `[mn, mx]` overlaps one of the
    requested spans; used for block-level skipping in `findFirstData` /
    `findLastData`. -/
def isTimestampInSpans (spans : List KwTsSpan) (mn mx : Int) : Bool :=
  spans.any fun s => decide (s.tsBegin ≤ mx) && decide (mn ≤ s.tsEnd)

/-- One metric row of a single entity inside a block: the column-0 timestamp,
    the tombstone bit of the block item's deleted bitmap, and the metric column
    cells (a `none` entry is a row whose null bit is set for that column). -/
structure Row where
  ts : Int
  deleted : Bool
  vals : List (Option Int)
  deriving DecidableEq

/-- Value of metric column `c` at a row; `none` when the null bit is set
    (columns beyond the stored width read as null, cf. `isColExist`). -/
def Row.val (r : Row) (c : Nat) : Option Int :=
  r.vals.getD c none

/-- The four per-block aggregate slots of one column:
    `count` (2 bytes), `max`, `min`, `sum`, in block-header order. -/
structure ColAgg where
  cnt : Nat
  maxv : Int
  minv : Int
  sumv : Int
  deriving DecidableEq

/-- A block item together with its column data: the published rows, the
    `is_agg_res_available` and `is_overflow` flags, the column-0 aggregate
    MIN/MAX slots (block min/max timestamps) and the per-column aggregate
    slots. -/
structure Block where
  rows : List Row
  aggAvailable : Bool
  isOverflow : Bool
  storedMinTs : Int
  storedMaxTs : Int
  colAggs : List ColAgg
  deriving DecidableEq

/-- Stored aggregate slots of column `c` of a block. -/
def Block.agg (b : Block) (c : Nat) : ColAgg :=
  b.colAggs.getD c ⟨0, 0, 0, 0⟩

/-- `publish_row_count` of the block item. -/
def Block.publishRowCount (b : Block) : Nat :=
  b.rows.length

/-- A partition table restricted to one entity: partition min/max timestamps
    (seconds, as returned by `minTimestamp()` / `maxTimestamp()`), the
    `EntityItem` min/max timestamps of the queried entity, and the entity's
    block items in `GetAllBlockItems` order. -/
structure Partition where
  minTs : Int
  maxTs : Int
  entityMinTs : Int
  entityMaxTs : Int
  blocks : List Block
  deriving DecidableEq

/-- A row is selected by a scan when it is not tombstoned and its timestamp
    lies in the requested spans (the per-row test of the slow paths). -/
def rowQualifies (spans : List KwTsSpan) (r : Row) : Bool :=
  !r.deleted && checkIfTsInSpan spans r.ts

/-- Non-null cells of column `c` over a row run, in row order. -/
def colVals (c : Nat) (rows : List Row) : List Int :=
  rows.filterMap fun r => r.val c

/-! ### Optional fold machinery

`AggCalculator::GetMin` / `GetMax` extend an optional running aggregate by one
value (a null base behaves as the identity); the machinery below captures that
fold and its interaction with list concatenation for any associative
combiner. -/

/-- Extend an optional running aggregate by one value with combiner `f`. -/
def ofold (f : Int → Int → Int) (a : Option Int) (v : Int) : Option Int :=
  match a with
  | none => some v
  | some m => some (f m v)

/-- Aggregate of a whole list of values (`none` on the empty list). -/
def listAgg (f : Int → Int → Int) (l : List Int) : Option Int :=
  l.foldl (ofold f) none

/-- Combine two optional aggregates (a `none` side is the identity). -/
def mergeAgg (f : Int → Int → Int) (a b : Option Int) : Option Int :=
  match a, b with
  | none, b => b
  | some m, none => some m
  | some m, some v => some (f m v)

theorem mergeAgg_none_right (f : Int → Int → Int) (a : Option Int) :
    mergeAgg f a none = a := by
  cases a <;> rfl

theorem mergeAgg_assoc (f : Int → Int → Int)
    (hf : ∀ x y z, f (f x y) z = f x (f y z)) (a b c : Option Int) :
    mergeAgg f (mergeAgg f a b) c = mergeAgg f a (mergeAgg f b c) := by
  cases a <;> cases b <;> cases c <;> simp [mergeAgg, hf]

theorem ofold_eq_mergeAgg (f : Int → Int → Int) (a : Option Int) (v : Int) :
    ofold f a v = mergeAgg f a (some v) := by
  cases a <;> rfl

theorem foldl_ofold_eq (f : Int → Int → Int)
    (hf : ∀ x y z, f (f x y) z = f x (f y z)) (l : List Int) :
    ∀ a : Option Int, l.foldl (ofold f) a = mergeAgg f a (listAgg f l) := by
  induction l with
  | nil => intro a; simp [listAgg, mergeAgg_none_right]
  | cons v t ih =>
    intro a
    have h1 : (v :: t).foldl (ofold f) a = t.foldl (ofold f) (ofold f a v) := rfl
    have h2 : listAgg f (v :: t) = t.foldl (ofold f) (some v) := rfl
    rw [h1, ih, h2, ih (some v), ofold_eq_mergeAgg,
      mergeAgg_assoc f hf]

theorem listAgg_append (f : Int → Int → Int)
    (hf : ∀ x y z, f (f x y) z = f x (f y z)) (l1 l2 : List Int) :
    listAgg f (l1 ++ l2) = mergeAgg f (listAgg f l1) (listAgg f l2) := by
  have h : listAgg f (l1 ++ l2) = l2.foldl (ofold f) (listAgg f l1) := by
    simp [listAgg, List.foldl_append]
  rw [h, foldl_ofold_eq f hf]

/-- Running MIN aggregate of a list of non-null cells. -/
def listMin (l : List Int) : Option Int := listAgg min l

/-- Running MAX aggregate of a list of non-null cells. -/
def listMax (l : List Int) : Option Int := listAgg max l

/-! ### Maximal runs of qualifying rows

`TsAggIterator::traverseAllBlocks` and the slow path of
`MMapSegmentTableIterator::Next` scan a block row by row, skipping
disqualified rows and emitting each maximal run of consecutive qualifying
rows as one batch.  `qruns` computes that run decomposition. -/

/-- Run decomposition with an explicit fuel argument (the fuel makes the
    recursion structural, so that concrete instances evaluate). -/
def qrunsF (q : Row → Bool) : Nat → List Row → List (List Row)
  | _, [] => []
  | 0, _ :: _ => []
  | n + 1, a :: l =>
    if q a then (a :: l.takeWhile q) :: qrunsF q n (l.dropWhile q)
    else qrunsF q n l

/-- The maximal runs of consecutive rows satisfying `q`, in order;
    rows failing `q` are dropped. -/
def qruns (q : Row → Bool) (l : List Row) : List (List Row) :=
  qrunsF q l.length l

theorem qrunsF_congr (q : Row → Bool) :
    ∀ (n m : Nat) (l : List Row), l.length ≤ n → l.length ≤ m →
      qrunsF q n l = qrunsF q m l := by
  intro n
  induction n with
  | zero =>
    intro m l h1 _
    have : l = [] := List.eq_nil_of_length_eq_zero (Nat.le_zero.mp h1)
    subst this
    cases m <;> rfl
  | succ n ih =>
    intro m l h1 h2
    match l, m with
    | [], m => cases m <;> rfl
    | a :: t, 0 => exact absurd h2 (by simp)
    | a :: t, m + 1 =>
      simp only [qrunsF]
      by_cases h : q a
      · simp only [h, if_true]
        have hd : (t.dropWhile q).length ≤ t.length := (List.dropWhile_sublist q).length_le
        rw [ih _ _ (le_trans hd (Nat.succ_le_succ_iff.mp h1))
          (le_trans hd (Nat.succ_le_succ_iff.mp h2))]
      · simp only [h, Bool.false_eq_true, if_false]
        exact ih _ _ (Nat.succ_le_succ_iff.mp h1) (Nat.succ_le_succ_iff.mp h2)

theorem qruns_nil (q : Row → Bool) : qruns q [] = [] := rfl

theorem qruns_cons (q : Row → Bool) (a : Row) (t : List Row) :
    qruns q (a :: t) =
      if q a then (a :: t.takeWhile q) :: qruns q (t.dropWhile q)
      else qruns q t := by
  show qrunsF q (t.length + 1) (a :: t) = _
  simp only [qrunsF]
  by_cases h : q a
  · simp only [h, if_true]
    rw [qrunsF_congr q t.length (t.dropWhile q).length (t.dropWhile q)
      (List.dropWhile_sublist q).length_le le_rfl]
    rfl
  · simp only [h, Bool.false_eq_true, if_false]
    rfl

theorem takeWhile_append_filter_dropWhile (q : Row → Bool) (t : List Row) :
    t.takeWhile q ++ (t.dropWhile q).filter q = t.filter q := by
  induction t with
  | nil => rfl
  | cons a t ih =>
    by_cases h : q a <;>
      simp [List.takeWhile_cons, List.dropWhile_cons, List.filter_cons, h, ih]

theorem qruns_flatten_aux (q : Row → Bool) :
    ∀ (n : Nat) (l : List Row), l.length ≤ n →
      (qruns q l).flatten = l.filter q := by
  intro n
  induction n with
  | zero =>
    intro l hl
    have : l = [] := List.eq_nil_of_length_eq_zero (Nat.le_zero.mp hl)
    subst this
    simp [qruns_nil]
  | succ n ih =>
    intro l hl
    match l with
    | [] => simp [qruns_nil]
    | a :: t =>
      by_cases h : q a
      · rw [qruns_cons]
        simp only [h, if_true, List.flatten_cons, List.filter_cons, h]
        have hlen : (t.dropWhile q).length ≤ n :=
          le_trans (List.dropWhile_sublist q).length_le (Nat.succ_le_succ_iff.mp hl)
        rw [ih _ hlen]
        simp [takeWhile_append_filter_dropWhile]
      · rw [qruns_cons]
        simp only [h, if_false, List.filter_cons]
        simp only [h, Bool.false_eq_true, if_false]
        exact ih t (Nat.succ_le_succ_iff.mp hl)

/-- The runs concatenate to exactly the rows passing the per-row test. -/
theorem qruns_flatten (q : Row → Bool) (l : List Row) :
    (qruns q l).flatten = l.filter q :=
  qruns_flatten_aux q l.length l le_rfl

theorem qruns_mem_sublist_aux (q : Row → Bool) :
    ∀ (n : Nat) (l : List Row), l.length ≤ n →
      ∀ run ∈ qruns q l, run.Sublist l := by
  intro n
  induction n with
  | zero =>
    intro l hl run hrun
    have : l = [] := List.eq_nil_of_length_eq_zero (Nat.le_zero.mp hl)
    subst this
    simp [qruns_nil] at hrun
  | succ n ih =>
    intro l hl run hrun
    match l with
    | [] => simp [qruns_nil] at hrun
    | a :: t =>
      by_cases h : q a
      · rw [qruns_cons] at hrun
        simp only [h, if_true, List.mem_cons] at hrun
        rcases hrun with rfl | hrun
        · exact (List.takeWhile_sublist q).cons₂ a
        · have hlen : (t.dropWhile q).length ≤ n :=
            le_trans (List.dropWhile_sublist q).length_le (Nat.succ_le_succ_iff.mp hl)
          exact ((ih _ hlen run hrun).trans (List.dropWhile_sublist q)).cons a
      · rw [qruns_cons] at hrun
        simp only [h, if_false] at hrun
        simp only [Bool.false_eq_true, if_false] at hrun
        exact (ih t (Nat.succ_le_succ_iff.mp hl) run hrun).cons a

/-- Every emitted run is a sublist of the scanned rows. -/
theorem qruns_mem_sublist (q : Row → Bool) (l : List Row) :
    ∀ run ∈ qruns q l, run.Sublist l :=
  qruns_mem_sublist_aux q l.length l le_rfl

theorem takeWhile_eq_self_of_all (q : Row → Bool) (l : List Row)
    (h : ∀ r ∈ l, q r = true) : l.takeWhile q = l := by
  induction l with
  | nil => rfl
  | cons a t ih =>
    rw [List.takeWhile_cons, h a (List.mem_cons_self a t)]
    simp [ih fun r hr => h r (List.mem_cons_of_mem a hr)]

theorem dropWhile_eq_nil_of_all (q : Row → Bool) (l : List Row)
    (h : ∀ r ∈ l, q r = true) : l.dropWhile q = [] := by
  induction l with
  | nil => rfl
  | cons a t ih =>
    rw [List.dropWhile_cons, h a (List.mem_cons_self a t)]
    simp [ih fun r hr => h r (List.mem_cons_of_mem a hr)]

/-- When every row qualifies, the whole nonempty block is one maximal run. -/
theorem qruns_of_all (q : Row → Bool) (l : List Row) (hne : l ≠ [])
    (h : ∀ r ∈ l, q r = true) : qruns q l = [l] := by
  match l with
  | [] => exact absurd rfl hne
  | a :: t =>
    rw [qruns_cons]
    have ht : ∀ r ∈ t, q r = true := fun r hr => h r (List.mem_cons_of_mem a hr)
    rw [h a (List.mem_cons_self a t)]
    simp [takeWhile_eq_self_of_all q t ht, dropWhile_eq_nil_of_all q t ht, qruns_nil]

/-! ### SUM promotion and overflow

Agreement between the storage layer and the execution layer (comment above
`ChangeSumType` in `iterator.cpp`): integer SUM results are returned as int64
when no overflow occurred and as double on overflow; float columns return
double.  A double is modelled by its exact integer value. -/

/-- A SUM result as handed to the execution layer: an int64 or a double
    (modelled by its exact value). -/
inductive SumVal
  | i64 (v : Int)
  | f64 (v : Int)
  deriving DecidableEq

/-- Numeric value carried by a SUM result. -/
def SumVal.value : SumVal → Int
  | .i64 v => v
  | .f64 v => v

/-- Interpretation of a raw sum slot of a column of type `t` (the slot holds
    the column's native accumulator; float/double slots are doubles). -/
def sumSlotVal (t : DATATYPE) (v : Int) : SumVal :=
  match t with
  | .FLOAT | .DOUBLE => .f64 v
  | _ => .i64 v

/-- Embeds `ChangeSumType` (`iterator.cpp` lines 40-62): for an
    i8/i16/i32 column the stored sum is widened to an int64 in fresh memory,
    for an f32 column to a double; any other type passes the slot through
    unchanged.  The returned flag is the function's result (`is_new`). -/
def ChangeSumType (t : DATATYPE) (v : Int) : Bool × SumVal :=
  match t with
  | .INT8 | .INT16 | .INT32 => (true, .i64 v)
  | .FLOAT => (true, .f64 v)
  | _ => (false, sumSlotVal t v)

/-- Whether `v` lies in the native range of the accumulator of type `t`
    (floating accumulators are modelled as never overflowing: every value in
    this development is exactly representable). -/
def inNativeRange (t : DATATYPE) (v : Int) : Bool :=
  match t with
  | .INT8 => decide (-128 ≤ v) && decide (v ≤ 127)
  | .INT16 => decide (-32768 ≤ v) && decide (v ≤ 32767)
  | .INT32 => decide (-2147483648 ≤ v) && decide (v ≤ 2147483647)
  | .INT64 => decide (-9223372036854775808 ≤ v) && decide (v ≤ 9223372036854775807)
  | .FLOAT | .DOUBLE => true

/-- Modelled from the spec: `AggCalculator::GetSum` (implementation not in the
    sampled sources) sums the non-null cells in the column's native
    accumulator; when the exact sum leaves the native range it reports
    overflow and returns the sum as a double (seed scenario (d): an i32 column
    holding INT32_MAX and 1 yields the double 2147483648 with the overflow
    flag set). -/
def getSumRun (t : DATATYPE) (vals : List Int) : Bool × SumVal :=
  let s := vals.sum
  if inNativeRange t s then (false, sumSlotVal t s) else (true, .f64 s)

/-- A SUM batch produced by the block-level fast path of
    `TsAggIterator::traverseAllBlocks` (its `mem`, `is_new` and `is_overflow`
    fields). -/
structure SumBatch where
  val : SumVal
  isNew : Bool
  overflow : Bool
  deriving DecidableEq

/-- Embeds the stored-aggregate SUM branch of `traverseAllBlocks`
    (`iterator.cpp` lines 976-993): when the block's `is_overflow` flag is
    set, SUM is recomputed from the raw cells of the run with
    `AggCalculator::GetSum`; otherwise the stored sum slot is read and
    converted with `ChangeSumType`. -/
def fastSumBatch (t : DATATYPE) (c : Nat) (b : Block) (run : List Row) : SumBatch :=
  if b.isOverflow then
    let r := getSumRun t (colVals c run)
    { val := r.2, isNew := true, overflow := r.1 }
  else
    let r := ChangeSumType t (b.agg c).sumv
    { val := r.2, isNew := r.1, overflow := false }

/-- Replace the stored sum slot of column `c` of a block (used to state that
    the overflow path never reads the stored slot). -/
def setStoredSum (b : Block) (c : Nat) (v : Int) : Block :=
  { b with colAggs := b.colAggs.set c { b.agg c with sumv := v } }

/-! ### Block well-formedness

Invariant 4 of the data model: when `is_agg_res_available` is set, the stored
per-block aggregates are consistent with the published rows and no row has
been tombstoned; the column-0 MIN/MAX slots bound every row timestamp.  When
`is_overflow` is clear the stored sum is exact and in the native range. -/

/-- Well-formedness of a block for column `c` of type `t`: the guarantees
    that hold whenever `is_agg_res_available` is set. -/
def WfBlock (t : DATATYPE) (c : Nat) (b : Block) : Prop :=
  b.aggAvailable = true →
    ((∀ r ∈ b.rows, r.deleted = false) ∧
     (∀ r ∈ b.rows, b.storedMinTs ≤ r.ts ∧ r.ts ≤ b.storedMaxTs) ∧
     (b.agg c).cnt = (colVals c b.rows).length ∧
     (colVals c b.rows ≠ [] →
        listMin (colVals c b.rows) = some (b.agg c).minv ∧
        listMax (colVals c b.rows) = some (b.agg c).maxv) ∧
     (b.isOverflow = false →
        (b.agg c).sumv = (colVals c b.rows).sum ∧
        inNativeRange t ((colVals c b.rows).sum) = true))

instance (t : DATATYPE) (c : Nat) (b : Block) : Decidable (WfBlock t c b) := by
  unfold WfBlock
  infer_instance

/-! ### Raw data iterator

`TsRawDataIterator::Next` (`iterator.cpp` lines 146-240) produces one batch
per call, all rows coming from a single block.  The model below computes, per
block, the sequence of batches the successive `Next` calls emit for it, and
then the whole emission across the partitions of one entity. -/

/-- Embeds the sequential-read test of `TsRawDataIterator::Next`
    (lines 196-217): pre-aggregates available, a nonempty block whose column-0
    MIN/MAX aggregates lie within the spans, and no tombstoned row. -/
def rawFastCond (spans : List KwTsSpan) (b : Block) : Bool :=
  b.aggAvailable && decide (0 < b.publishRowCount) &&
    isTimestampWithinSpans spans b.storedMinTs b.storedMaxTs &&
    b.rows.all fun r => !r.deleted

/-- Batches emitted for one block: the whole block as a single batch on the
    fast path, otherwise (modelled from the spec: the slow path
    `MMapSegmentTableIterator::Next` is not in the sampled sources) the
    maximal runs of consecutive selectable rows, one batch per call. -/
def rawBlockBatches (spans : List KwTsSpan) (b : Block) : List (List Row) :=
  if rawFastCond spans b then [b.rows]
  else qruns (rowQualifies spans) b.rows

/-- All rows the raw iterator produces for one block, in order. -/
def rawBlockRows (spans : List KwTsSpan) (b : Block) : List Row :=
  (rawBlockBatches spans b).flatten

/-- Embeds the early-termination test on the current partition
    (`iterator.cpp` lines 167-175): with a valid watermark, a forward scan
    stops when `minTimestamp() * 1000 > ts`, a reverse scan when
    `maxTimestamp() * 1000 < ts`.  `none` models `INVALID_TS`. -/
def partEarlyExit (isReversed : Bool) (watermark : Option Int) (p : Partition) : Bool :=
  match watermark with
  | none => false
  | some ts => if !isReversed then decide (p.minTs * 1000 > ts)
               else decide (p.maxTs * 1000 < ts)

/-- Batches emitted by the raw iterator across the partitions of one entity,
    in partition order: a partition with no block items is skipped (the
    watermark test runs only once a block item is current); when the
    early-termination test fires, the scan ends with no further batches. -/
def rawScanParts (isReversed : Bool) (watermark : Option Int)
    (spans : List KwTsSpan) : List Partition → List (List Row)
  | [] => []
  | p :: rest =>
    if p.blocks.isEmpty then rawScanParts isReversed watermark spans rest
    else if partEarlyExit isReversed watermark p then []
    else (p.blocks.flatMap fun b => rawBlockBatches spans b) ++
      rawScanParts isReversed watermark spans rest

/-! ### Aggregate iterator: block partials

`TsAggIterator::traverseAllBlocks` (`iterator.cpp` lines 737-1018) emits, for
each maximal run of selectable rows, one partial aggregate batch per
requested column; `TsAggIterator::Next` then folds the partials.  The model
is specialised to one projected column `c` of type `t` (the per-column loop
treats the columns independently and the modelled schema has no ALTER, so
the actual and requested column types agree). -/

/-- A partial aggregate for one run of rows: the MIN/MAX batches (absent when
    skipped), the SUM value with its overflow flag, and the COUNT batch. -/
structure PartialAgg where
  minv : Option Int
  maxv : Option Int
  sumv : Int
  sumOverflow : Bool
  cnt : Nat
  deriving DecidableEq

/-- Partial aggregate computed from the raw cells of a run with
    `AggCalculator` (the branch at lines 849-975, with `GetMin` / `GetMax` /
    `GetSum` and the explicit non-null COUNT loop). -/
def aggFromCells (t : DATATYPE) (c : Nat) (run : List Row) : PartialAgg :=
  { minv := listMin (colVals c run)
    maxv := listMax (colVals c run)
    sumv := (getSumRun t (colVals c run)).2.value
    sumOverflow := (getSumRun t (colVals c run)).1
    cnt := (colVals c run).length }

/-- Partial aggregate read from the stored per-block slots (the branch at
    lines 976-1002): MIN/MAX/COUNT come from the aggregate slots; SUM is the
    `fastSumBatch` result (recomputed from cells when `is_overflow`). -/
def aggFromStored (t : DATATYPE) (c : Nat) (b : Block) (run : List Row) : PartialAgg :=
  { minv := some (b.agg c).minv
    maxv := some (b.agg c).maxv
    sumv := (fastSumBatch t c b run).val.value
    sumOverflow := (fastSumBatch t c b run).overflow
    cnt := (b.agg c).cnt }

/-- Partial emitted for one run: skipped when the run holds no non-null value
    (the `hasValue` guard at line 843); the stored slots are used exactly when
    the run covers the whole block and `is_agg_res_available` holds (the test
    at lines 849-850), otherwise the cells are aggregated. -/
def runPartial (t : DATATYPE) (c : Nat) (b : Block) (run : List Row) :
    Option PartialAgg :=
  if colVals c run = [] then none
  else if run.length = b.rows.length ∧ b.aggAvailable = true then
    some (aggFromStored t c b run)
  else some (aggFromCells t c run)

/-- Embeds the sequential-read test of `traverseAllBlocks` (lines 769-772):
    pre-aggregates available, nonempty block, and the column-0 MAX and MIN
    aggregates each lie inside some requested span (tested independently with
    `checkIfTsInSpan`), with no tombstoned row (lines 773-789). -/
def aggFastCond (spans : List KwTsSpan) (b : Block) : Bool :=
  b.aggAvailable && decide (0 < b.publishRowCount) &&
    checkIfTsInSpan spans b.storedMaxTs && checkIfTsInSpan spans b.storedMinTs &&
    b.rows.all fun r => !r.deleted

/-- The partial aggregates emitted for one block by successive
    `traverseAllBlocks` calls (for MIN/MAX/SUM/COUNT requests, so that the
    sequential-read optimization is enabled, i.e. `no_first_last_type_`): on
    the fast path the whole block is one run handed to the stored-slot
    branch; otherwise each maximal run of selectable rows yields a partial. -/
def blockPartials (t : DATATYPE) (c : Nat) (spans : List KwTsSpan) (b : Block) :
    List PartialAgg :=
  if aggFastCond spans b then (runPartial t c b b.rows).toList
  else (qruns (rowQualifies spans) b.rows).filterMap (runPartial t c b)

/-- All partial aggregates for the blocks of one entity, in visit order. -/
def entityPartials (t : DATATYPE) (c : Nat) (spans : List KwTsSpan)
    (bs : List Block) : List PartialAgg :=
  bs.flatMap fun b => blockPartials t c spans b

/-- Final MIN result of `TsAggIterator::Next` (lines 1219-1251): fold
    `AggCalculator::GetMin` over the partial batches; `none` models the null
    batch produced when no partial was collected. -/
def aggMinResult (t : DATATYPE) (c : Nat) (spans : List KwTsSpan)
    (bs : List Block) : Option Int :=
  ((entityPartials t c spans bs).map PartialAgg.minv).foldl (mergeAgg min) none

/-- Final MAX result of `TsAggIterator::Next` (lines 1185-1218). -/
def aggMaxResult (t : DATATYPE) (c : Nat) (spans : List KwTsSpan)
    (bs : List Block) : Option Int :=
  ((entityPartials t c spans bs).map PartialAgg.maxv).foldl (mergeAgg max) none

/-- Final SUM result of `TsAggIterator::Next` (lines 1253-1268): the partial
    sums are accumulated (`GetSum` with a running base); with no partials the
    batch stays null.  Only the numeric value is modelled; the int64/double
    tag is the overflow promotion. -/
def aggSumResult (t : DATATYPE) (c : Nat) (spans : List KwTsSpan)
    (bs : List Block) : Option Int :=
  if entityPartials t c spans bs = [] then none
  else some (((entityPartials t c spans bs).map PartialAgg.sumv).sum)

/-- Final COUNT result of `TsAggIterator::Next` (lines 1270-1282): the sum of
    the partial counts (0 when no partial was collected). -/
def aggCountResult (t : DATATYPE) (c : Nat) (spans : List KwTsSpan)
    (bs : List Block) : Nat :=
  ((entityPartials t c spans bs).map PartialAgg.cnt).sum

/-- The per-block hypothesis under which the sequential-read test of
    `traverseAllBlocks` is conclusive: whenever both block-boundary
    timestamps lie in the spans, every row timestamp of the block does
    (automatic for a single requested span, by the MIN/MAX bounds). -/
def SpanSaturated (spans : List KwTsSpan) (b : Block) : Prop :=
  checkIfTsInSpan spans b.storedMaxTs = true →
  checkIfTsInSpan spans b.storedMinTs = true →
  ∀ r ∈ b.rows, checkIfTsInSpan spans r.ts = true

instance (spans : List KwTsSpan) (b : Block) : Decidable (SpanSaturated spans b) := by
  unfold SpanSaturated
  infer_instance

/-! ### Equivalence of the stored-slot and raw-cell partials -/

theorem ChangeSumType_value (t : DATATYPE) (v : Int) :
    (ChangeSumType t v).2.value = v := by
  cases t <;> rfl

theorem getSumRun_value (t : DATATYPE) (vals : List Int) :
    (getSumRun t vals).2.value = vals.sum := by
  unfold getSumRun
  dsimp only
  split
  · cases t <;> rfl
  · rfl

theorem getSumRun_overflow (t : DATATYPE) (vals : List Int) :
    (getSumRun t vals).1 = !inNativeRange t vals.sum := by
  unfold getSumRun
  dsimp only
  split <;> simp_all

theorem filterMapOfCongr {α β : Type} (f g : α → Option β) :
    ∀ l : List α, (∀ a ∈ l, f a = g a) → l.filterMap f = l.filterMap g := by
  intro l
  induction l with
  | nil => intro _; rfl
  | cons a t ih =>
    intro h
    rw [List.filterMap_cons, List.filterMap_cons, h a (List.mem_cons_self a t),
      ih fun x hx => h x (List.mem_cons_of_mem a hx)]

/-- On a well-formed block, the stored-slot partial of a whole-block run
    agrees with the raw-cell partial. -/
theorem aggFromStored_eq_cells (t : DATATYPE) (c : Nat) (b : Block)
    (hwf : WfBlock t c b) (hav : b.aggAvailable = true)
    (hne : colVals c b.rows ≠ []) :
    aggFromStored t c b b.rows = aggFromCells t c b.rows := by
  obtain ⟨-, -, hcnt, hminmax, hsum⟩ := hwf hav
  obtain ⟨hmin, hmax⟩ := hminmax hne
  unfold aggFromStored aggFromCells fastSumBatch
  by_cases hov : b.isOverflow
  · simp only [hov, if_true]
    refine PartialAgg.mk.injEq .. ▸ ⟨?_, ?_, rfl, rfl, hcnt⟩
    · rw [← hmin]
    · rw [← hmax]
  · obtain ⟨hsv, hrange⟩ := hsum (by simpa using hov)
    simp only [hov, if_false, Bool.false_eq_true]
    refine PartialAgg.mk.injEq .. ▸ ⟨?_, ?_, ?_, ?_, hcnt⟩
    · rw [← hmin]
    · rw [← hmax]
    · rw [ChangeSumType_value, getSumRun_value, hsv]
    · rw [getSumRun_overflow, hrange]
      rfl

/-- Normal form of the per-block partial sequence on a well-formed,
    span-saturated block: one raw-cell partial per run with a non-null value. -/
theorem blockPartials_norm (t : DATATYPE) (c : Nat) (spans : List KwTsSpan)
    (b : Block) (hwf : WfBlock t c b) (hsat : SpanSaturated spans b) :
    blockPartials t c spans b =
      (qruns (rowQualifies spans) b.rows).filterMap fun run =>
        if colVals c run = [] then none else some (aggFromCells t c run) := by
  have hrunfix : ∀ run ∈ qruns (rowQualifies spans) b.rows,
      runPartial t c b run =
        if colVals c run = [] then none else some (aggFromCells t c run) := by
    intro run hrun
    unfold runPartial
    by_cases hemp : colVals c run = []
    · simp [hemp]
    · simp only [hemp, if_false]
      by_cases hcond : run.length = b.rows.length ∧ b.aggAvailable = true
      · have heq : run = b.rows :=
          (qruns_mem_sublist _ _ run hrun).eq_of_length hcond.1
        subst heq
        rw [if_pos hcond, aggFromStored_eq_cells t c b hwf hcond.2 hemp]
      · rw [if_neg hcond]
  by_cases hfast : aggFastCond spans b
  · unfold blockPartials
    rw [if_pos hfast]
    unfold aggFastCond at hfast
    simp only [Bool.and_eq_true, List.all_eq_true, decide_eq_true_eq] at hfast
    obtain ⟨⟨⟨⟨hav, hpos⟩, hmaxin⟩, hminin⟩, hnodel⟩ := hfast
    have hne : b.rows ≠ [] := by
      intro h
      simp [Block.publishRowCount, h] at hpos
    have hall : ∀ r ∈ b.rows, rowQualifies spans r = true := by
      intro r hr
      unfold rowQualifies
      rw [hsat hmaxin hminin r hr]
      simp [hnodel r hr]
    rw [qruns_of_all _ _ hne hall, List.filterMap_cons,
      hrunfix b.rows (by rw [qruns_of_all _ _ hne hall]; exact List.mem_singleton.mpr rfl)]
    by_cases hemp : colVals c b.rows = []
    · simp [hemp]
    · simp [hemp]
  · unfold blockPartials
    rw [if_neg hfast]
    exact filterMapOfCongr _ _ _ hrunfix

/-! ### Folding the normalized partials -/

/-- Normalized per-run partial emitter (the shape established by
    `blockPartials_norm`). -/
def normPartial (t : DATATYPE) (c : Nat) (run : List Row) : Option PartialAgg :=
  if colVals c run = [] then none else some (aggFromCells t c run)

theorem colVals_append (c : Nat) (l1 l2 : List Row) :
    colVals c (l1 ++ l2) = colVals c l1 ++ colVals c l2 :=
  List.filterMap_append ..

theorem normPartial_none (t : DATATYPE) (c : Nat) (run : List Row)
    (hemp : colVals c run = []) : normPartial t c run = none := by
  simp [normPartial, hemp]

theorem normPartial_some (t : DATATYPE) (c : Nat) (run : List Row)
    (hemp : ¬colVals c run = []) :
    normPartial t c run = some (aggFromCells t c run) := by
  simp [normPartial, hemp]

theorem partialsMin_fold (t : DATATYPE) (c : Nat) (V : List (List Row)) :
    ∀ a, ((V.filterMap (normPartial t c)).map PartialAgg.minv).foldl (mergeAgg min) a
      = mergeAgg min a (listMin (colVals c V.flatten)) := by
  induction V with
  | nil =>
    intro a
    simp [listMin, listAgg, colVals, mergeAgg_none_right]
  | cons run V ih =>
    intro a
    rw [List.flatten_cons, colVals_append]
    by_cases hemp : colVals c run = []
    · rw [List.filterMap_cons_none (normPartial_none t c run hemp), hemp,
        List.nil_append]
      exact ih a
    · rw [List.filterMap_cons_some (normPartial_some t c run hemp),
        List.map_cons, List.foldl_cons]
      rw [ih]
      simp only [listMin]
      rw [listAgg_append min min_assoc, ← mergeAgg_assoc min min_assoc]
      rfl

theorem partialsMax_fold (t : DATATYPE) (c : Nat) (V : List (List Row)) :
    ∀ a, ((V.filterMap (normPartial t c)).map PartialAgg.maxv).foldl (mergeAgg max) a
      = mergeAgg max a (listMax (colVals c V.flatten)) := by
  induction V with
  | nil =>
    intro a
    simp [listMax, listAgg, colVals, mergeAgg_none_right]
  | cons run V ih =>
    intro a
    rw [List.flatten_cons, colVals_append]
    by_cases hemp : colVals c run = []
    · rw [List.filterMap_cons_none (normPartial_none t c run hemp), hemp,
        List.nil_append]
      exact ih a
    · rw [List.filterMap_cons_some (normPartial_some t c run hemp),
        List.map_cons, List.foldl_cons]
      rw [ih]
      simp only [listMax]
      rw [listAgg_append max max_assoc, ← mergeAgg_assoc max max_assoc]
      rfl

theorem partialsSum_fold (t : DATATYPE) (c : Nat) (V : List (List Row)) :
    ((V.filterMap (normPartial t c)).map PartialAgg.sumv).sum
      = (colVals c V.flatten).sum := by
  induction V with
  | nil => simp [colVals]
  | cons run V ih =>
    rw [List.flatten_cons, colVals_append, List.sum_append]
    by_cases hemp : colVals c run = []
    · rw [List.filterMap_cons_none (normPartial_none t c run hemp), hemp, ih]
      simp
    · rw [List.filterMap_cons_some (normPartial_some t c run hemp),
        List.map_cons, List.sum_cons, ih]
      unfold aggFromCells
      rw [getSumRun_value]

theorem partialsCnt_fold (t : DATATYPE) (c : Nat) (V : List (List Row)) :
    ((V.filterMap (normPartial t c)).map PartialAgg.cnt).sum
      = (colVals c V.flatten).length := by
  induction V with
  | nil => simp [colVals]
  | cons run V ih =>
    rw [List.flatten_cons, colVals_append, List.length_append]
    by_cases hemp : colVals c run = []
    · rw [List.filterMap_cons_none (normPartial_none t c run hemp), hemp, ih]
      simp
    · rw [List.filterMap_cons_some (normPartial_some t c run hemp),
        List.map_cons, List.sum_cons, ih]
      rfl

theorem partials_empty_iff (t : DATATYPE) (c : Nat) (V : List (List Row)) :
    V.filterMap (normPartial t c) = [] ↔ colVals c V.flatten = [] := by
  induction V with
  | nil => simp [colVals]
  | cons run V ih =>
    rw [List.flatten_cons, colVals_append]
    by_cases hemp : colVals c run = []
    · rw [List.filterMap_cons_none (normPartial_none t c run hemp), hemp,
        List.nil_append]
      exact ih
    · rw [List.filterMap_cons_some (normPartial_some t c run hemp)]
      simp [hemp]

theorem flatMapOfCongr {α β : Type} (f g : α → List β) :
    ∀ l : List α, (∀ a ∈ l, f a = g a) → l.flatMap f = l.flatMap g := by
  intro l
  induction l with
  | nil => intro _; rfl
  | cons a t ih =>
    intro h
    rw [List.flatMap_cons, List.flatMap_cons, h a (List.mem_cons_self a t),
      ih fun x hx => h x (List.mem_cons_of_mem a hx)]

/-- Normal form of the whole partial sequence of an entity. -/
theorem entityPartials_norm (t : DATATYPE) (c : Nat) (spans : List KwTsSpan)
    (bs : List Block) (hwf : ∀ b ∈ bs, WfBlock t c b)
    (hsat : ∀ b ∈ bs, SpanSaturated spans b) :
    entityPartials t c spans bs =
      (bs.flatMap fun b => qruns (rowQualifies spans) b.rows).filterMap
        (normPartial t c) := by
  induction bs with
  | nil => rfl
  | cons b bs ih =>
    rw [entityPartials, List.flatMap_cons, List.flatMap_cons, List.filterMap_append]
    rw [blockPartials_norm t c spans b (hwf b (List.mem_cons_self b bs))
      (hsat b (List.mem_cons_self b bs))]
    rw [← entityPartials]
    rw [ih (fun x hx => hwf x (List.mem_cons_of_mem b hx))
      (fun x hx => hsat x (List.mem_cons_of_mem b hx))]
    rfl

theorem runs_flatten (spans : List KwTsSpan) (bs : List Block) :
    (bs.flatMap fun b => qruns (rowQualifies spans) b.rows).flatten
      = bs.flatMap fun b => b.rows.filter (rowQualifies spans) := by
  induction bs with
  | nil => rfl
  | cons b bs ih =>
    rw [List.flatMap_cons, List.flatMap_cons, List.flatten_append, ih,
      qruns_flatten]

theorem filter_eq_self_of_all (q : Row → Bool) (l : List Row)
    (h : ∀ r ∈ l, q r = true) : l.filter q = l := by
  induction l with
  | nil => rfl
  | cons a t ih =>
    rw [List.filter_cons, h a (List.mem_cons_self a t)]
    simp [ih fun r hr => h r (List.mem_cons_of_mem a hr)]

/-- On a well-formed block, the rows the raw iterator emits for the block are
    exactly the selectable rows, whichever path is taken. -/
theorem rawBlockRows_eq_filter (t : DATATYPE) (c : Nat) (spans : List KwTsSpan)
    (b : Block) (hwf : WfBlock t c b) :
    rawBlockRows spans b = b.rows.filter (rowQualifies spans) := by
  unfold rawBlockRows rawBlockBatches
  by_cases hfast : rawFastCond spans b
  · rw [if_pos hfast]
    unfold rawFastCond at hfast
    simp only [Bool.and_eq_true, List.all_eq_true, decide_eq_true_eq] at hfast
    obtain ⟨⟨⟨hav, -⟩, hwithin⟩, hnodel⟩ := hfast
    obtain ⟨-, hbound, -⟩ := hwf hav
    rw [isTimestampWithinSpans, List.any_eq_true] at hwithin
    obtain ⟨s, hs, hspan⟩ := hwithin
    simp only [Bool.and_eq_true, decide_eq_true_eq] at hspan
    have hall : ∀ r ∈ b.rows, rowQualifies spans r = true := by
      intro r hr
      unfold rowQualifies
      have hin : checkIfTsInSpan spans r.ts = true := by
        rw [checkIfTsInSpan, List.any_eq_true]
        exact ⟨s, hs, by
          simp only [Bool.and_eq_true, decide_eq_true_eq]
          exact ⟨le_trans hspan.1 (hbound r hr).1, le_trans (hbound r hr).2 hspan.2⟩⟩
      rw [hin]
      simp [hnodel r hr]
    rw [filter_eq_self_of_all _ _ hall]
    simp
  · rw [if_neg hfast]
    exact qruns_flatten ..

/-- Claim C1 (amended): for every entity, projected column `c` and ts-spans,
    with well-formed blocks and spans under which the block-boundary test of
    the sequential-read optimization is conclusive (e.g. a single requested
    span), the MIN/MAX/SUM/COUNT results of the aggregate iterator's `Next`
    equal the same aggregates computed naively over the exact rows the raw
    iterator produces for the same entity, spans and column — the SUM value
    compared exactly, i.e. modulo its int64-to-double overflow promotion. -/
theorem agg_iterator_matches_naive_raw (t : DATATYPE) (c : Nat)
    (spans : List KwTsSpan) (bs : List Block)
    (hwf : ∀ b ∈ bs, WfBlock t c b) (hsat : ∀ b ∈ bs, SpanSaturated spans b) :
    aggMinResult t c spans bs
        = listMin (colVals c (bs.flatMap (rawBlockRows spans))) ∧
    aggMaxResult t c spans bs
        = listMax (colVals c (bs.flatMap (rawBlockRows spans))) ∧
    aggSumResult t c spans bs
        = (if colVals c (bs.flatMap (rawBlockRows spans)) = [] then none
           else some (colVals c (bs.flatMap (rawBlockRows spans))).sum) ∧
    aggCountResult t c spans bs
        = (colVals c (bs.flatMap (rawBlockRows spans))).length := by
  have hraw : bs.flatMap (rawBlockRows spans)
      = bs.flatMap fun b => b.rows.filter (rowQualifies spans) :=
    flatMapOfCongr _ _ bs fun b hb => rawBlockRows_eq_filter t c spans b (hwf b hb)
  have hnorm := entityPartials_norm t c spans bs hwf hsat
  have hflat := runs_flatten spans bs
  refine ⟨?_, ?_, ?_, ?_⟩
  · rw [aggMinResult, hnorm, partialsMin_fold, hflat, ← hraw]
    rfl
  · rw [aggMaxResult, hnorm, partialsMax_fold, hflat, ← hraw]
    rfl
  · rw [aggSumResult, hnorm]
    have hAB : ((bs.flatMap fun b => qruns (rowQualifies spans) b.rows).filterMap
        (normPartial t c) = [])
          ↔ colVals c (bs.flatMap (rawBlockRows spans)) = [] := by
      rw [partials_empty_iff, hflat, ← hraw]
    have hval : (((bs.flatMap fun b => qruns (rowQualifies spans) b.rows).filterMap
        (normPartial t c)).map PartialAgg.sumv).sum
          = (colVals c (bs.flatMap (rawBlockRows spans))).sum := by
      rw [partialsSum_fold, hflat, ← hraw]
    exact if_congr hAB rfl (congrArg some hval)
  · rw [aggCountResult, hnorm, partialsCnt_fold, hflat, ← hraw]

/-! ### Concrete instances for the iterator claims -/

/-- A well-formed block whose rows straddle two disjoint requested spans:
    its boundary timestamps each lie in some span, yet the middle row lies in
    none. -/
def blkStraddle : Block :=
  { rows := [⟨50, false, [some 10]⟩, ⟨150, false, [some 20]⟩, ⟨250, false, [some 30]⟩]
    aggAvailable := true
    isOverflow := false
    storedMinTs := 50
    storedMaxTs := 250
    colAggs := [⟨3, 30, 10, 60⟩] }

/-- Two disjoint spans covering only the boundary rows of `blkStraddle`. -/
def spansDisjoint : List KwTsSpan := [⟨0, 100⟩, ⟨200, 300⟩]

/-- A single span covering everything. -/
def spanWide : List KwTsSpan := [⟨0, 1000⟩]

/-- Claim C1, as stated, fails on the code: on a well-formed block whose
    boundary timestamps each lie in some requested span while a middle row
    lies in none, the sequential-read test of `traverseAllBlocks` (which
    checks the two boundaries independently with `checkIfTsInSpan`) reuses
    the stored whole-block aggregates, so COUNT/SUM include the middle row;
    the raw iterator's per-row filter excludes it. -/
theorem agg_naive_raw_counterexample :
    WfBlock .INT32 0 blkStraddle ∧
    aggCountResult .INT32 0 spansDisjoint [blkStraddle] = 3 ∧
    (colVals 0 ([blkStraddle].flatMap (rawBlockRows spansDisjoint))).length = 2 ∧
    aggSumResult .INT32 0 spansDisjoint [blkStraddle] = some 60 ∧
    (colVals 0 ([blkStraddle].flatMap (rawBlockRows spansDisjoint))).sum = 40 := by
  decide

/-- Witness for the amended claim C1 at a concrete input (single span, one
    well-formed block). -/
theorem agg_naive_raw_witness :
    aggMinResult .INT32 0 spanWide [blkStraddle]
        = listMin (colVals 0 ([blkStraddle].flatMap (rawBlockRows spanWide))) ∧
    aggMaxResult .INT32 0 spanWide [blkStraddle]
        = listMax (colVals 0 ([blkStraddle].flatMap (rawBlockRows spanWide))) ∧
    aggSumResult .INT32 0 spanWide [blkStraddle]
        = (if colVals 0 ([blkStraddle].flatMap (rawBlockRows spanWide)) = [] then none
           else some (colVals 0 ([blkStraddle].flatMap (rawBlockRows spanWide))).sum) ∧
    aggCountResult .INT32 0 spanWide [blkStraddle]
        = (colVals 0 ([blkStraddle].flatMap (rawBlockRows spanWide))).length :=
  agg_iterator_matches_naive_raw .INT32 0 spanWide [blkStraddle]
    (by decide) (by decide)

/-- Both endpoints inside every requested span (the condition claim C4 words
    state literally, used for its counterexample). -/
def allSpansContain (spans : List KwTsSpan) (mn mx : Int) : Bool :=
  spans.all fun s => decide (s.tsBegin ≤ mn) && decide (mx ≤ s.tsEnd)

/-- Claim C4 (amended): the raw iterator returns an entire block as one batch
    with no per-row timestamp check exactly when the block's pre-aggregates
    are available, the block is nonempty, its min_ts and max_ts both lie
    inside ONE of the requested ts_spans (inclusive comparisons, so spans
    whose boundary equals the block's min_ts or max_ts qualify), and no row
    is tombstoned; and on a well-formed block the fast path and the
    row-by-row path select the same rows. -/
theorem raw_fast_path_exact (t : DATATYPE) (c : Nat) (spans : List KwTsSpan)
    (b : Block) (hwf : WfBlock t c b) :
    (rawFastCond spans b = true ↔
      (b.aggAvailable = true ∧ 0 < b.publishRowCount ∧
       isTimestampWithinSpans spans b.storedMinTs b.storedMaxTs = true ∧
       ∀ r ∈ b.rows, r.deleted = false)) ∧
    (rawFastCond spans b = true → rawBlockBatches spans b = [b.rows]) ∧
    (rawFastCond spans b = false →
      rawBlockBatches spans b = qruns (rowQualifies spans) b.rows) ∧
    rawBlockRows spans b = b.rows.filter (rowQualifies spans) := by
  refine ⟨?_, ?_, ?_, rawBlockRows_eq_filter t c spans b hwf⟩
  · unfold rawFastCond
    simp only [Bool.and_eq_true, List.all_eq_true, decide_eq_true_eq,
      Bool.not_eq_true', and_assoc]
  · intro h
    unfold rawBlockBatches
    rw [if_pos h]
  · intro h
    unfold rawBlockBatches
    rw [if_neg (by rw [h]; exact Bool.false_ne_true)]

/-- Claim C4, as stated, is false on the code: with two requested spans, the
    fast path is taken for a block lying inside only the first span, although
    the block's bounds are not inside every requested span. -/
theorem raw_fast_path_counterexample :
    WfBlock .INT32 0 blkStraddle ∧
    rawFastCond [⟨0, 300⟩, ⟨400, 500⟩] blkStraddle = true ∧
    allSpansContain [⟨0, 300⟩, ⟨400, 500⟩] blkStraddle.storedMinTs
      blkStraddle.storedMaxTs = false := by
  decide

/-- Witness for the amended claim C4 at a concrete input whose span boundary
    equals the block's min_ts and max_ts exactly. -/
theorem raw_fast_path_witness :
    rawBlockBatches [(⟨50, 250⟩ : KwTsSpan)] blkStraddle = [blkStraddle.rows] ∧
    rawBlockRows [(⟨50, 250⟩ : KwTsSpan)] blkStraddle
      = blkStraddle.rows.filter (rowQualifies [⟨50, 250⟩]) := by
  have h := raw_fast_path_exact .INT32 0 [⟨50, 250⟩] blkStraddle (by decide)
  exact ⟨h.2.1 (by decide), h.2.2.2⟩

/-- Claim C8: for a forward scan with a valid watermark, when the current
    partition's minimum timestamp times 1000 exceeds the watermark, the raw
    iterator's `Next` terminates early (`SUCCESS`, count 0) and scans no
    further partition; for a reverse scan, symmetrically when the partition's
    maximum timestamp times 1000 is below the watermark. -/
theorem raw_watermark_early_exit (spans : List KwTsSpan) (wm : Int)
    (p : Partition) (rest : List Partition) (hne : p.blocks ≠ []) :
    (p.minTs * 1000 > wm →
      rawScanParts false (some wm) spans (p :: rest) = []) ∧
    (p.maxTs * 1000 < wm →
      rawScanParts true (some wm) spans (p :: rest) = []) := by
  constructor <;> intro h
  · rw [rawScanParts, if_neg (by simpa using hne),
      if_pos (by simp [partEarlyExit, h])]
  · rw [rawScanParts, if_neg (by simpa using hne),
      if_pos (by simp [partEarlyExit, h])]

/-- Witness for claim C8 at concrete inputs (forward and reverse). -/
theorem raw_watermark_witness :
    rawScanParts false (some 5000) spanWide [⟨6, 7, 6, 7, [blkStraddle]⟩] = [] ∧
    rawScanParts true (some 5000) spanWide [⟨1, 2, 1, 2, [blkStraddle]⟩] = [] := by
  have h1 := raw_watermark_early_exit spanWide 5000 ⟨6, 7, 6, 7, [blkStraddle]⟩ []
    (by decide)
  have h2 := raw_watermark_early_exit spanWide 5000 ⟨1, 2, 1, 2, [blkStraddle]⟩ []
    (by decide)
  exact ⟨h1.1 (by decide), h2.2 (by decide)⟩

/-- Claim C3: in the block-level fast path the SUM result is type-promoted —
    for an i8/i16/i32 column the returned SUM is an int64, for an f32 column
    a double — and whenever the block's `is_overflow` flag is set the SUM is
    recomputed from the raw cells (the result does not depend on the stored
    sum slot). -/
theorem fast_path_sum_promotion (t : DATATYPE) (c : Nat) (b : Block)
    (run : List Row) :
    (b.isOverflow = false →
      ((t = .INT8 ∨ t = .INT16 ∨ t = .INT32 →
          (fastSumBatch t c b run).val = SumVal.i64 (b.agg c).sumv) ∧
       (t = .FLOAT →
          (fastSumBatch t c b run).val = SumVal.f64 (b.agg c).sumv))) ∧
    (b.isOverflow = true →
      (fastSumBatch t c b run =
        { val := (getSumRun t (colVals c run)).2
          isNew := true
          overflow := (getSumRun t (colVals c run)).1 }) ∧
      ∀ v, fastSumBatch t c (setStoredSum b c v) run = fastSumBatch t c b run) := by
  constructor
  · intro hov
    constructor
    · rintro (rfl | rfl | rfl) <;> simp [fastSumBatch, hov, ChangeSumType]
    · rintro rfl
      simp [fastSumBatch, hov, ChangeSumType]
  · intro hov
    have hss : ∀ v, (setStoredSum b c v).isOverflow = b.isOverflow := fun _ => rfl
    constructor
    · simp [fastSumBatch, hov]
    · intro v
      unfold fastSumBatch
      rw [hss, hov]
      simp

/-- Seed scenario (d): an i32 column holding INT32_MAX and 1, whose block sum
    overflowed the native i32 range (`is_overflow` set; the stored sum slot
    then holds no usable value). -/
def blkOverflowInt32 : Block :=
  { rows := [⟨1000, false, [some 2147483647]⟩, ⟨2000, false, [some 1]⟩]
    aggAvailable := true
    isOverflow := true
    storedMinTs := 1000
    storedMaxTs := 2000
    colAggs := [⟨2, 2147483647, 1, 0⟩] }

/-- Witness for claim C3: seed scenario (d) — an i32 column holding INT32_MAX
    and 1 with `is_overflow` set yields SUM as the double 2147483648 with the
    overflow flag set; with `is_overflow` clear the stored slot is returned
    widened to int64. -/
theorem fast_path_sum_witness :
    (fastSumBatch .INT32 0 blkOverflowInt32 blkOverflowInt32.rows).val
        = SumVal.f64 2147483648 ∧
    (fastSumBatch .INT32 0 blkOverflowInt32 blkOverflowInt32.rows).overflow = true ∧
    (fastSumBatch .INT32 0 { blkOverflowInt32 with isOverflow := false }
        blkOverflowInt32.rows).val = SumVal.i64 0 := by
  have h := fast_path_sum_promotion .INT32 0 blkOverflowInt32 blkOverflowInt32.rows
  have h2 := (fast_path_sum_promotion .INT32 0
    { blkOverflowInt32 with isOverflow := false } blkOverflowInt32.rows).1 rfl
  refine ⟨?_, ?_, ?_⟩
  · rw [(h.2 rfl).1]
    decide
  · rw [(h.2 rfl).1]
    decide
  · exact h2.1 (Or.inr (Or.inr rfl))

/-! ### first/last candidate updates

`TsAggIterator::updateFirstCols` / `updateLastCols` / `updateFirstLastCols`
(`iterator.cpp` lines 243-325) keep, per queried column, a candidate
`(timestamp, row)` pair; `none` models the initial `INVALID_TS` state.  The
model records the candidate's timestamp together with the value the
packaging step reads at the candidate row. -/

/-- Candidate update for a `first(col)` entry of `first_pairs_` (lines
    251-258, 299-306): replaced when the row's timestamp is strictly below
    the recorded one (or none is recorded) and the column is non-null. -/
def updateFirstCand (r : Row) (c : Nat) (cand : Option (Int × Int)) :
    Option (Int × Int) :=
  match r.val c with
  | none => cand
  | some v =>
    match cand with
    | none => some (r.ts, v)
    | some (ts0, v0) => if ts0 > r.ts then some (r.ts, v) else some (ts0, v0)

/-- Candidate update for a `last(col)` entry of `last_pairs_` (lines 275-282,
    307-314): strictly greater timestamp and non-null column. -/
def updateLastCand (r : Row) (c : Nat) (cand : Option (Int × Int)) :
    Option (Int × Int) :=
  match r.val c with
  | none => cand
  | some v =>
    match cand with
    | none => some (r.ts, v)
    | some (ts0, v0) => if ts0 < r.ts then some (r.ts, v) else some (ts0, v0)

/-- Candidate update for `first_row_pair_` (lines 259-263, 315-319): strictly
    smaller timestamp, regardless of the column being null. -/
def updateFirstRowCand (r : Row) (c : Nat) (cand : Option (Int × Option Int)) :
    Option (Int × Option Int) :=
  match cand with
  | none => some (r.ts, r.val c)
  | some (ts0, w) => if ts0 > r.ts then some (r.ts, r.val c) else some (ts0, w)

/-- Candidate update for `last_row_pair_` (lines 283-287, 320-324): strictly
    greater timestamp, regardless of the column being null. -/
def updateLastRowCand (r : Row) (c : Nat) (cand : Option (Int × Option Int)) :
    Option (Int × Option Int) :=
  match cand with
  | none => some (r.ts, r.val c)
  | some (ts0, w) => if ts0 < r.ts then some (r.ts, r.val c) else some (ts0, w)

/-- Claim C5: during aggregate traversal, a `first(col)` candidate is
    replaced iff the row's timestamp is strictly smaller than the recorded
    candidate timestamp (or no candidate exists) and the column is non-null
    at the row; `first_row` is replaced iff the timestamp is strictly
    smaller, regardless of null; symmetrically, `last` / `last_row` with
    strictly greater timestamps. -/
theorem first_last_update_rules (r : Row) (c : Nat) :
    (∀ v, r.val c = some v →
      updateFirstCand r c none = some (r.ts, v) ∧
      (∀ ts0 v0, r.ts < ts0 →
        updateFirstCand r c (some (ts0, v0)) = some (r.ts, v)) ∧
      (∀ ts0 v0, ¬r.ts < ts0 →
        updateFirstCand r c (some (ts0, v0)) = some (ts0, v0)) ∧
      updateLastCand r c none = some (r.ts, v) ∧
      (∀ ts0 v0, ts0 < r.ts →
        updateLastCand r c (some (ts0, v0)) = some (r.ts, v)) ∧
      (∀ ts0 v0, ¬ts0 < r.ts →
        updateLastCand r c (some (ts0, v0)) = some (ts0, v0))) ∧
    (r.val c = none → ∀ cand,
      updateFirstCand r c cand = cand ∧ updateLastCand r c cand = cand) ∧
    updateFirstRowCand r c none = some (r.ts, r.val c) ∧
    (∀ ts0 w, r.ts < ts0 →
      updateFirstRowCand r c (some (ts0, w)) = some (r.ts, r.val c)) ∧
    (∀ ts0 w, ¬r.ts < ts0 →
      updateFirstRowCand r c (some (ts0, w)) = some (ts0, w)) ∧
    updateLastRowCand r c none = some (r.ts, r.val c) ∧
    (∀ ts0 w, ts0 < r.ts →
      updateLastRowCand r c (some (ts0, w)) = some (r.ts, r.val c)) ∧
    (∀ ts0 w, ¬ts0 < r.ts →
      updateLastRowCand r c (some (ts0, w)) = some (ts0, w)) := by
  refine ⟨?_, ?_, rfl, ?_, ?_, rfl, ?_, ?_⟩
  · intro v hv
    refine ⟨by simp [updateFirstCand, hv], ?_, ?_,
      by simp [updateLastCand, hv], ?_, ?_⟩
    · intro ts0 v0 h
      simp [updateFirstCand, hv, h]
    · intro ts0 v0 h
      simp [updateFirstCand, hv, h]
    · intro ts0 v0 h
      simp [updateLastCand, hv, h]
    · intro ts0 v0 h
      simp [updateLastCand, hv, h]
  · intro hv cand
    exact ⟨by simp [updateFirstCand, hv], by simp [updateLastCand, hv]⟩
  · intro ts0 w h
    simp [updateFirstRowCand, h]
  · intro ts0 w h
    simp [updateFirstRowCand, h]
  · intro ts0 w h
    simp [updateLastRowCand, h]
  · intro ts0 w h
    simp [updateLastRowCand, h]

/-- Witness for claim C5 at concrete rows and candidates. -/
theorem first_last_update_witness :
    updateFirstCand ⟨100, false, [some 7]⟩ 0 (some (200, 5)) = some (100, 7) ∧
    updateFirstCand ⟨100, false, [some 7]⟩ 0 (some (100, 5)) = some (100, 5) ∧
    updateFirstCand ⟨100, false, [none]⟩ 0 (some (200, 5)) = some (200, 5) ∧
    updateLastCand ⟨300, false, [some 9]⟩ 0 (some (200, 5)) = some (300, 9) ∧
    updateFirstRowCand ⟨100, false, [none]⟩ 0 (some (200, some 5))
      = some (100, none) := by
  have h1 := first_last_update_rules ⟨100, false, [some 7]⟩ 0
  have h2 := first_last_update_rules ⟨100, false, [none]⟩ 0
  have h3 := first_last_update_rules ⟨300, false, [some 9]⟩ 0
  refine ⟨?_, ?_, ?_, ?_, ?_⟩
  · exact (h1.1 7 rfl).2.1 200 5 (by decide)
  · exact (h1.1 7 rfl).2.2.1 100 5 (by decide)
  · exact ((h2.2.1 rfl (some (200, 5))).1)
  · exact (h3.1 9 rfl).2.2.2.2.1 200 5 (by decide)
  · exact h2.2.2.2.1 200 (some 5) (by decide)

/-! ### The first-family short-circuit (`TsAggIterator::findFirstData`)

`iterator.cpp` lines 334-525: when every requested aggregate is of the
first family, partitions are scanned in ascending order and the scan stops
as soon as all requested candidates exist and the current row's timestamp
equals the entity's recorded `min_ts` of the partition.  The model is
specialised to one queried column `c`. -/

/-- Which first-family aggregates the query requests: the FIRST/FIRSTTS
    family and/or the FIRST_ROW/FIRSTROWTS family. -/
structure FirstQuery where
  wantFirst : Bool
  wantFirstRow : Bool
  deriving DecidableEq

/-- The `first_pairs_` candidate of the queried column together with
    `first_row_pair_`. -/
structure FirstScanState where
  cand : Option (Int × Int)
  candRow : Option (Int × Option Int)
  deriving DecidableEq

/-- Both candidates start as `INVALID_TS`. -/
def initFirstScan : FirstScanState := ⟨none, none⟩

/-- One `updateFirstCols` call (lines 243-264) on the state. -/
def stepFirst (r : Row) (c : Nat) (st : FirstScanState) : FirstScanState :=
  { cand := updateFirstCand r c st.cand
    candRow := updateFirstRowCand r c st.candRow }

/-- Modelled from the spec: `hasFoundFirstAggData` (iterator header, not in
    the sampled sources) holds when all queried columns and their query
    types already have results. -/
def hasFoundFirst (q : FirstQuery) (st : FirstScanState) : Bool :=
  (!q.wantFirst || st.cand.isSome) && (!q.wantFirstRow || st.candRow.isSome)

/-- The row loop of `findFirstData` (lines 383-406): skip tombstoned and
    out-of-span rows, update the candidates, and stop (`true`) once all
    candidates exist and the row's timestamp equals the entity's recorded
    partition minimum. -/
def scanRowsFirst (spans : List KwTsSpan) (c : Nat) (minEnt : Int)
    (q : FirstQuery) : List Row → FirstScanState → FirstScanState × Bool
  | [], st => (st, false)
  | r :: rest, st =>
    if r.deleted || !checkIfTsInSpan spans r.ts then
      scanRowsFirst spans c minEnt q rest st
    else
      let st1 := stepFirst r c st
      if hasFoundFirst q st1 && decide (r.ts = minEnt) then (st1, true)
      else scanRowsFirst spans c minEnt q rest st1

/-- The block loop of `findFirstData` (lines 358-410): skip empty blocks,
    blocks that are all-null in the queried columns when no first_row type
    is requested, and blocks whose time range misses the spans. -/
def scanBlocksFirst (spans : List KwTsSpan) (c : Nat) (minEnt : Int)
    (q : FirstQuery) : List Block → FirstScanState → FirstScanState × Bool
  | [], st => (st, false)
  | b :: rest, st =>
    if b.rows.isEmpty then scanBlocksFirst spans c minEnt q rest st
    else if !q.wantFirstRow && (colVals c b.rows).isEmpty then
      scanBlocksFirst spans c minEnt q rest st
    else if !isTimestampInSpans spans b.storedMinTs b.storedMaxTs then
      scanBlocksFirst spans c minEnt q rest st
    else
      match scanRowsFirst spans c minEnt q b.rows st with
      | (st1, true) => (st1, true)
      | (st1, false) => scanBlocksFirst spans c minEnt q rest st1

/-- The partition loop of `findFirstData` (lines 340-414, watermark
    `INVALID_TS`): ascending partitions, stopping once all requested
    candidates exist. -/
def scanPartsFirst (spans : List KwTsSpan) (c : Nat) (q : FirstQuery) :
    List Partition → FirstScanState → FirstScanState
  | [], st => st
  | p :: rest, st =>
    match scanBlocksFirst spans c p.entityMinTs q p.blocks st with
    | (st1, true) => st1
    | (st1, false) =>
      if hasFoundFirst q st1 then st1 else scanPartsFirst spans c q rest st1

/-- The batches `findFirstData` packages (lines 418-516) in the order FIRST,
    FIRSTTS, FIRST_ROW, FIRSTROWTS, restricted to the requested families; a
    `none` is a null batch. -/
def firstResults (q : FirstQuery) (st : FirstScanState) : List (Option Int) :=
  (if q.wantFirst then [st.cand.map Prod.snd, st.cand.map Prod.fst] else []) ++
    (if q.wantFirstRow then
      [st.candRow.bind Prod.snd, st.candRow.map Prod.fst] else [])

/-- Modelled from the spec: `isAllAggResNull` (not in the sampled sources)
    holds when every batch of the result set is a null batch. -/
def isAllAggResNull (res : List (Option Int)) : Bool :=
  res.all Option.isNone

/-- The suppression step at lines 517-524 and 1466-1475: an all-null result
    row is dropped (count 0, result set cleared). -/
def finalizeAggRes (res : List (Option Int)) : Nat × List (Option Int) :=
  if isAllAggResNull res then (0, []) else (1, res)

/-- `findFirstData` end-to-end for one entity: scan, package, suppress. -/
def findFirstModel (spans : List KwTsSpan) (c : Nat) (q : FirstQuery)
    (ps : List Partition) : Nat × List (Option Int) :=
  finalizeAggRes (firstResults q (scanPartsFirst spans c q ps initFirstScan))

/-- Candidate state after the general aggregate path, which visits every
    selectable row of every block (`traverseAllBlocks` row loop, line 818,
    calling `updateFirstLastCols` whose first-family updates coincide with
    `updateFirstCols`). -/
def generalFirstState (spans : List KwTsSpan) (c : Nat)
    (ps : List Partition) : FirstScanState :=
  (ps.flatMap Partition.blocks).foldl
    (fun st b => b.rows.foldl
      (fun st r => if rowQualifies spans r then stepFirst r c st else st) st)
    initFirstScan

/-- Failing input for claim C2: a single partition whose block holds rows out
    of timestamp order, the minimum-timestamp row being null in the queried
    column. -/
def blkOutOfOrder : Block :=
  { rows := [⟨500, false, [some 5]⟩, ⟨100, false, [none]⟩, ⟨300, false, [some 3]⟩]
    aggAvailable := false
    isOverflow := false
    storedMinTs := 100
    storedMaxTs := 500
    colAggs := [] }

/-- The partition holding `blkOutOfOrder`; its `EntityItem` min/max
    timestamps record the true row extremes. -/
def partOutOfOrder : Partition := ⟨0, 1, 100, 500, [blkOutOfOrder]⟩

/-- Claim C2 fails on the code (code bug): for a FIRST(c) query over
    `partOutOfOrder`, the short-circuit stops at the min-timestamp row (null
    in `c`) with the stale candidate of timestamp 500, while the general
    aggregate path visits the remaining row and returns the true first
    non-null value at timestamp 300. -/
theorem first_shortcircuit_divergence :
    WfBlock .INT32 0 blkOutOfOrder ∧
    listMin (blkOutOfOrder.rows.map Row.ts) = some partOutOfOrder.entityMinTs ∧
    listMax (blkOutOfOrder.rows.map Row.ts) = some partOutOfOrder.entityMaxTs ∧
    (scanPartsFirst spanWide 0 ⟨true, false⟩ [partOutOfOrder] initFirstScan).cand
      = some (500, 5) ∧
    (generalFirstState spanWide 0 [partOutOfOrder]).cand = some (300, 3) := by
  decide

/-! ### Claim C10: suppression of all-null aggregate rows -/

/-- The block's column-0 MIN/MAX aggregates are timestamps of actual rows
    (they are maintained as the min/max over the written rows). -/
def TsBoundsAttained (b : Block) : Prop :=
  b.rows ≠ [] →
    ((∃ r ∈ b.rows, r.ts = b.storedMinTs) ∧ (∃ r ∈ b.rows, r.ts = b.storedMaxTs))

instance (b : Block) : Decidable (TsBoundsAttained b) := by
  unfold TsBoundsAttained
  infer_instance

/-- The general-path `Next` outcome for MIN/MAX/SUM/COUNT queries: with no
    collected batch it returns count 0 with the result set untouched
    (line 1168); otherwise one aggregated result row. -/
def generalAggNext (t : DATATYPE) (c : Nat) (spans : List KwTsSpan)
    (bs : List Block) : Nat × List (Option Int) :=
  if entityPartials t c spans bs = [] then (0, [])
  else (1, [aggMinResult t c spans bs, aggMaxResult t c spans bs,
            aggSumResult t c spans bs, some (Int.ofNat (aggCountResult t c spans bs))])

theorem qruns_of_none (q : Row → Bool) (l : List Row)
    (h : ∀ r ∈ l, q r = false) : qruns q l = [] := by
  induction l with
  | nil => rfl
  | cons a t ih =>
    rw [qruns_cons, h a (List.mem_cons_self a t)]
    simp only [Bool.false_eq_true, if_false]
    exact ih fun r hr => h r (List.mem_cons_of_mem a hr)

theorem blockPartials_of_no_qual (t : DATATYPE) (c : Nat)
    (spans : List KwTsSpan) (b : Block)
    (hq : ∀ r ∈ b.rows, rowQualifies spans r = false)
    (hat : TsBoundsAttained b) :
    blockPartials t c spans b = [] := by
  unfold blockPartials
  by_cases hfast : aggFastCond spans b
  · exfalso
    unfold aggFastCond at hfast
    simp only [Bool.and_eq_true, List.all_eq_true, decide_eq_true_eq] at hfast
    obtain ⟨⟨⟨⟨-, hpos⟩, hmaxin⟩, -⟩, hnodel⟩ := hfast
    have hne : b.rows ≠ [] := by
      intro h
      simp [Block.publishRowCount, h] at hpos
    obtain ⟨-, r, hr, hrts⟩ := hat hne
    have : rowQualifies spans r = true := by
      unfold rowQualifies
      rw [hrts, hmaxin]
      simp [hnodel r hr]
    rw [hq r hr] at this
    exact Bool.false_ne_true this
  · rw [if_neg hfast, qruns_of_none _ _ hq]
    rfl

theorem scanRowsFirst_no_qual (spans : List KwTsSpan) (c : Nat) (minEnt : Int)
    (q : FirstQuery) (rows : List Row)
    (h : ∀ r ∈ rows, rowQualifies spans r = false) :
    ∀ st, scanRowsFirst spans c minEnt q rows st = (st, false) := by
  induction rows with
  | nil => intro st; rfl
  | cons r rest ih =>
    intro st
    have hr : (r.deleted || !checkIfTsInSpan spans r.ts) = true := by
      have := h r (List.mem_cons_self r rest)
      unfold rowQualifies at this
      cases hd : r.deleted <;> cases hc : checkIfTsInSpan spans r.ts <;>
        simp_all
    rw [scanRowsFirst, if_pos hr]
    exact ih (fun x hx => h x (List.mem_cons_of_mem r hx)) st

theorem scanBlocksFirst_no_qual (spans : List KwTsSpan) (c : Nat)
    (minEnt : Int) (q : FirstQuery) (bs : List Block)
    (h : ∀ b ∈ bs, ∀ r ∈ b.rows, rowQualifies spans r = false) :
    ∀ st, scanBlocksFirst spans c minEnt q bs st = (st, false) := by
  induction bs with
  | nil => intro st; rfl
  | cons b rest ih =>
    intro st
    have hrest := fun x hx => h x (List.mem_cons_of_mem b hx)
    rw [scanBlocksFirst]
    by_cases h1 : b.rows.isEmpty
    · rw [if_pos h1]
      exact ih hrest st
    · rw [if_neg h1]
      by_cases h2 : (!q.wantFirstRow && (colVals c b.rows).isEmpty) = true
      · rw [if_pos h2]
        exact ih hrest st
      · rw [if_neg h2]
        by_cases h3 : (!isTimestampInSpans spans b.storedMinTs b.storedMaxTs) = true
        · rw [if_pos h3]
          exact ih hrest st
        · rw [if_neg h3,
            scanRowsFirst_no_qual spans c minEnt q b.rows
              (h b (List.mem_cons_self b rest)) st]
          exact ih hrest st

theorem scanPartsFirst_no_qual (spans : List KwTsSpan) (c : Nat)
    (q : FirstQuery) (ps : List Partition)
    (h : ∀ p ∈ ps, ∀ b ∈ p.blocks, ∀ r ∈ b.rows, rowQualifies spans r = false) :
    ∀ st, scanPartsFirst spans c q ps st = st := by
  induction ps with
  | nil => intro st; rfl
  | cons p rest ih =>
    intro st
    rw [scanPartsFirst,
      scanBlocksFirst_no_qual spans c p.entityMinTs q p.blocks
        (h p (List.mem_cons_self p rest)) st]
    by_cases hf : hasFoundFirst q st = true
    · simp only [hf, if_true]
    · simp only [hf, Bool.false_eq_true, if_false]
      exact ih (fun x hx => h x (List.mem_cons_of_mem p hx)) st

theorem flatMap_nil_of_all {α β : Type} (f : α → List β) :
    ∀ l : List α, (∀ a ∈ l, f a = []) → l.flatMap f = [] := by
  intro l
  induction l with
  | nil => intro _; rfl
  | cons a t ih =>
    intro h
    rw [List.flatMap_cons, h a (List.mem_cons_self a t),
      ih fun x hx => h x (List.mem_cons_of_mem a hx)]
    rfl

/-- Claim C10: for every entity none of whose live rows lies in the requested
    ts_spans (so every requested aggregate result is null), the aggregate
    iterator's `Next` suppresses the result row: the first-family path
    returns count 0 and clears the result set, and the general path returns
    count 0 with no result batch. -/
theorem all_null_agg_row_suppressed (t : DATATYPE) (c : Nat)
    (spans : List KwTsSpan) (q : FirstQuery) (ps : List Partition)
    (hq : ∀ p ∈ ps, ∀ b ∈ p.blocks, ∀ r ∈ b.rows, rowQualifies spans r = false)
    (hat : ∀ p ∈ ps, ∀ b ∈ p.blocks, TsBoundsAttained b) :
    findFirstModel spans c q ps = (0, []) ∧
    generalAggNext t c spans (ps.flatMap Partition.blocks) = (0, []) := by
  constructor
  · unfold findFirstModel
    rw [scanPartsFirst_no_qual spans c q ps hq initFirstScan]
    unfold finalizeAggRes firstResults initFirstScan
    cases q.wantFirst <;> cases q.wantFirstRow <;> simp [isAllAggResNull]
  · unfold generalAggNext
    rw [if_pos]
    unfold entityPartials
    refine flatMap_nil_of_all _ _ fun b hb => ?_
    obtain ⟨p, hp, hbp⟩ := List.mem_flatMap.mp hb
    exact blockPartials_of_no_qual t c spans b (hq p hp b hbp) (hat p hp b hbp)

/-- Witness for claim C10: one partition holding a tombstoned row and a live
    row outside the span. -/
theorem all_null_agg_row_witness :
    findFirstModel [(⟨0, 200⟩ : KwTsSpan)] 0 ⟨true, true⟩
        [⟨0, 1, 100, 300, [⟨[⟨100, true, [some 1]⟩, ⟨300, false, [some 2]⟩],
          false, false, 100, 300, []⟩]⟩] = (0, []) ∧
    generalAggNext .INT32 0 [(⟨0, 200⟩ : KwTsSpan)]
        ([(⟨0, 1, 100, 300, [⟨[⟨100, true, [some 1]⟩, ⟨300, false, [some 2]⟩],
          false, false, 100, 300, []⟩]⟩ : Partition)].flatMap Partition.blocks)
      = (0, []) :=
  all_null_agg_row_suppressed .INT32 0 [⟨0, 200⟩] ⟨true, true⟩
    [⟨0, 1, 100, 300, [⟨[⟨100, true, [some 1]⟩, ⟨300, false, [some 2]⟩],
      false, false, 100, 300, []⟩]⟩]
    (by decide) (by decide)

/-! ### Entity-group delete path (`TsEntityGroup::DeleteData`)

`ts_table.cpp` lines 423-480: resolve the primary tag, select the partitions
covering the span extremes, tombstone the matching rows partition by
partition, and sum the per-partition counts.  Primary tags are opaque byte
strings, modelled by an injective `Nat` encoding. -/

/-- Tag-table rows relevant to lookup: primary tag, entity id, subgroup id. -/
structure TagTable where
  rows : List (Nat × Nat × Nat)
  deriving DecidableEq

/-- `getEntityIdGroupId`: resolve primary-tag bytes through the hash index to
    `(entity_id, subgroup_id)`; `none` mirrors the negative return (entity
    absent). -/
def getEntityIdGroupId (tt : TagTable) (ptag : Nat) : Option (Nat × Nat) :=
  (tt.rows.find? fun e => e.1 == ptag).map Prod.snd

/-- Entity-group state restricted to one sub-group: the tag table and the
    sub-group's partition tables for the entity. -/
structure EGState where
  tagTable : TagTable
  parts : List Partition
  deriving DecidableEq

/-- Modelled from the spec: tombstone one block — set the deleted bit of
    every live row whose timestamp lies in the spans (the very predicate the
    readers use), count the newly set bits, and clear `is_agg_res_available`
    when a bit was set; no physical removal
    (`MMapPartitionTable::DeleteData` is not in the sampled sources). -/
def blockDelete (spans : List KwTsSpan) (b : Block) : Block × Nat :=
  let n := (b.rows.filter (rowQualifies spans)).length
  ({ b with
      rows := b.rows.map fun r =>
        if rowQualifies spans r then { r with deleted := true } else r
      aggAvailable := if 0 < n then false else b.aggAvailable },
   n)

/-- Tombstone every block of a partition, summing the counts. -/
def partDelete (spans : List KwTsSpan) (p : Partition) : Partition × Nat :=
  ({ p with blocks := p.blocks.map fun b => (blockDelete spans b).1 },
   (p.blocks.map fun b => (blockDelete spans b).2).sum)

/-- Minimum of the span begins, starting from INT64_MAX (lines 438-442). -/
def spansMinTs (spans : List KwTsSpan) : Int :=
  spans.foldl (fun m s => if m > s.tsBegin then s.tsBegin else m)
    9223372036854775807

/-- Maximum of the span ends, starting from INT64_MIN (lines 438-442). -/
def spansMaxTs (spans : List KwTsSpan) : Int :=
  spans.foldl (fun m s => if m < s.tsEnd then s.tsEnd else m)
    (-9223372036854775808)

/-- Modelled from the spec: `GetPartitionTables` (sub-group manager, not in
    the sampled sources) selects the partitions whose second-resolution time
    range intersects the requested range. -/
def partInRange (mn mx : Int) (p : Partition) : Bool :=
  decide (p.minTs ≤ mx) && decide (mn ≤ p.maxTs)

/-- The partition update `DeleteData` performs: partitions covering
    `[min/1000, max/1000]` of the span extremes (C truncating division,
    `Int.tdiv`) are tombstoned, others are untouched. -/
def partDelApply (spans : List KwTsSpan) (p : Partition) : Partition :=
  if partInRange ((spansMinTs spans).tdiv 1000) ((spansMaxTs spans).tdiv 1000) p
  then (partDelete spans p).1 else p

/-- The per-partition deleted-row count `DeleteData` accumulates. -/
def partDelCount (spans : List KwTsSpan) (p : Partition) : Nat :=
  if partInRange ((spansMinTs spans).tdiv 1000) ((spansMaxTs spans).tdiv 1000) p
  then (partDelete spans p).2 else 0

/-- Embeds `TsEntityGroup::DeleteData` (`ts_table.cpp` lines 423-480): a tag
    lookup miss logs a warning and returns `SUCCESS` with count 0 (lines
    434-437); otherwise the partitions covering the span extremes are
    tombstoned and the counts summed.  The modelled partition delete cannot
    fail, so the `del_failed` propagation of the source is not reachable. -/
def TsEntityGroupDeleteData (st : EGState) (ptag : Nat)
    (spans : List KwTsSpan) : KStatus × Nat × EGState :=
  match getEntityIdGroupId st.tagTable ptag with
  | none => (KStatus.SUCCESS, 0, st)
  | some _ =>
    (KStatus.SUCCESS, (st.parts.map (partDelCount spans)).sum,
     ⟨st.tagTable, st.parts.map (partDelApply spans)⟩)

/-- Status component of `DeleteData`. -/
def deleteDataStatus (st : EGState) (ptag : Nat) (spans : List KwTsSpan) :
    KStatus :=
  (TsEntityGroupDeleteData st ptag spans).1

/-- Deleted-row count of `DeleteData`. -/
def deleteDataCount (st : EGState) (ptag : Nat) (spans : List KwTsSpan) : Nat :=
  (TsEntityGroupDeleteData st ptag spans).2.1

/-- Post-state of `DeleteData`. -/
def deleteDataState (st : EGState) (ptag : Nat) (spans : List KwTsSpan) :
    EGState :=
  (TsEntityGroupDeleteData st ptag spans).2.2

/-- The rows a full scan with spans `qs` reads from the sub-group. -/
def readSet (qs : List KwTsSpan) (st : EGState) : List Row :=
  st.parts.flatMap fun p => p.blocks.flatMap fun b => rawBlockRows qs b

/-- A state with an empty tag table (no entity exists). -/
def egEmpty : EGState := ⟨⟨[]⟩, []⟩

/-- Claim C7, as stated, fails on the code: when no entity exists for the
    primary tag, `DeleteData` does not surface a distinct NotFound condition
    to the caller — the `ret < 0` branch (lines 434-437) logs a warning and
    returns `KStatus::SUCCESS`, the same status as a successful deletion
    (the returned `KStatus` has no NotFound value), with count 0 and the
    state unchanged. -/
theorem delete_absent_counterexample :
    getEntityIdGroupId egEmpty.tagTable 1 = none ∧
    TsEntityGroupDeleteData egEmpty 1 [⟨0, 100⟩]
      = (KStatus.SUCCESS, 0, egEmpty) := by
  decide

/-- Claim C7 (amended): for every `delete_data` call whose primary tag
    resolves to no entity, the call returns `SUCCESS` (logging a warning,
    not surfacing NotFound) with count 0, and no stored data is modified. -/
theorem delete_absent_noop (st : EGState) (ptag : Nat)
    (spans : List KwTsSpan)
    (h : getEntityIdGroupId st.tagTable ptag = none) :
    TsEntityGroupDeleteData st ptag spans = (KStatus.SUCCESS, 0, st) := by
  unfold TsEntityGroupDeleteData
  rw [h]

/-- Witness for the amended claim C7 at a concrete state. -/
theorem delete_absent_witness :
    TsEntityGroupDeleteData egEmpty 1 [⟨0, 100⟩]
      = (KStatus.SUCCESS, 0, egEmpty) :=
  delete_absent_noop egEmpty 1 [⟨0, 100⟩] (by decide)

/-! ### Idempotence of tombstone deletion -/

theorem filterRowsEqNil (q : Row → Bool) (l : List Row)
    (h : ∀ r ∈ l, q r = false) : l.filter q = [] := by
  induction l with
  | nil => rfl
  | cons a t ih =>
    rw [List.filter_cons, h a (List.mem_cons_self a t)]
    simp only [Bool.false_eq_true, if_false]
    exact ih fun r hr => h r (List.mem_cons_of_mem a hr)

theorem mapOfCongr {α β : Type} (f g : α → β) :
    ∀ l : List α, (∀ a ∈ l, f a = g a) → l.map f = l.map g := by
  intro l
  induction l with
  | nil => intro _; rfl
  | cons a t ih =>
    intro h
    rw [List.map_cons, List.map_cons, h a (List.mem_cons_self a t),
      ih fun x hx => h x (List.mem_cons_of_mem a hx)]

theorem sumNatZero (l : List Nat) (h : ∀ x ∈ l, x = 0) : l.sum = 0 := by
  induction l with
  | nil => rfl
  | cons a t ih =>
    rw [List.sum_cons, h a (List.mem_cons_self a t),
      ih fun x hx => h x (List.mem_cons_of_mem a hx)]

theorem blockDelete_rows_no_hit (spans : List KwTsSpan) (b : Block) :
    ∀ r ∈ (blockDelete spans b).1.rows, rowQualifies spans r = false := by
  intro r hr
  unfold blockDelete at hr
  dsimp only at hr
  obtain ⟨r0, -, rfl⟩ := List.mem_map.mp hr
  by_cases h : rowQualifies spans r0 = true
  · rw [if_pos h]
    simp [rowQualifies]
  · rw [if_neg h]
    exact Bool.eq_false_iff.mpr h

theorem blockDelete_of_no_hit (spans : List KwTsSpan) (b : Block)
    (h : ∀ r ∈ b.rows, rowQualifies spans r = false) :
    blockDelete spans b = (b, 0) := by
  unfold blockDelete
  rw [filterRowsEqNil _ _ h]
  have hmap : (b.rows.map fun r =>
      if rowQualifies spans r then { r with deleted := true } else r)
        = b.rows := by
    rw [mapOfCongr _ id b.rows fun r hr => by rw [h r hr]; rfl, List.map_id]
  simp [hmap]

theorem blockDelete_idem (spans : List KwTsSpan) (b : Block) :
    blockDelete spans (blockDelete spans b).1 = ((blockDelete spans b).1, 0) :=
  blockDelete_of_no_hit spans (blockDelete spans b).1
    (blockDelete_rows_no_hit spans b)

theorem partDelete_idem (spans : List KwTsSpan) (p : Partition) :
    partDelete spans (partDelete spans p).1 = ((partDelete spans p).1, 0) := by
  unfold partDelete
  dsimp only
  rw [List.map_map, List.map_map]
  have h1 : ∀ b ∈ p.blocks,
      ((fun b => (blockDelete spans b).1) ∘ fun b => (blockDelete spans b).1) b
        = (fun b => (blockDelete spans b).1) b := by
    intro b _
    simp only [Function.comp_apply]
    rw [blockDelete_idem spans b]
  have h2 : ∀ b ∈ p.blocks,
      ((fun b => (blockDelete spans b).2) ∘ fun b => (blockDelete spans b).1) b
        = (fun _ => (0 : Nat)) b := by
    intro b _
    simp only [Function.comp_apply]
    rw [blockDelete_idem spans b]
  rw [mapOfCongr _ _ p.blocks h1, mapOfCongr _ _ p.blocks h2,
    sumNatZero (p.blocks.map fun _ => 0) (by
      intro x hx
      obtain ⟨-, -, rfl⟩ := List.mem_map.mp hx
      rfl)]

theorem partDelete_minTs (spans : List KwTsSpan) (p : Partition) :
    (partDelete spans p).1.minTs = p.minTs := rfl

theorem partDelete_maxTs (spans : List KwTsSpan) (p : Partition) :
    (partDelete spans p).1.maxTs = p.maxTs := rfl

/-- A row changed by tombstoning only: timestamp and cells kept, the deleted
    bit only ever set. -/
def RowTombstoneOnly (r r' : Row) : Prop :=
  r'.ts = r.ts ∧ r'.vals = r.vals ∧ (r.deleted = true → r'.deleted = true)

/-- A block changed by tombstoning only: same row count (via `Forall₂`),
    rows related by `RowTombstoneOnly`, stored slots kept, and
    `is_agg_res_available` only ever cleared. -/
def BlockTombstoneOnly (b b' : Block) : Prop :=
  List.Forall₂ RowTombstoneOnly b.rows b'.rows ∧
    b'.storedMinTs = b.storedMinTs ∧ b'.storedMaxTs = b.storedMaxTs ∧
    b'.colAggs = b.colAggs ∧ (b'.aggAvailable = true → b.aggAvailable = true)

/-- A partition changed by tombstoning only. -/
def PartTombstoneOnly (p p' : Partition) : Prop :=
  List.Forall₂ BlockTombstoneOnly p.blocks p'.blocks ∧
    p'.minTs = p.minTs ∧ p'.maxTs = p.maxTs ∧
    p'.entityMinTs = p.entityMinTs ∧ p'.entityMaxTs = p.entityMaxTs

/-- An entity-group state changed by tombstoning only. -/
def StateTombstoneOnly (st st' : EGState) : Prop :=
  st'.tagTable = st.tagTable ∧ List.Forall₂ PartTombstoneOnly st.parts st'.parts

theorem forallTwoMapSelf {α : Type} (R : α → α → Prop) (f : α → α)
    (l : List α) (h : ∀ a ∈ l, R a (f a)) : List.Forall₂ R l (l.map f) := by
  induction l with
  | nil => exact List.Forall₂.nil
  | cons a t ih =>
    exact List.Forall₂.cons (h a (List.mem_cons_self a t))
      (ih fun x hx => h x (List.mem_cons_of_mem a hx))

theorem forallTwoRefl {α : Type} (R : α → α → Prop) (l : List α)
    (h : ∀ a ∈ l, R a a) : List.Forall₂ R l l := by
  induction l with
  | nil => exact List.Forall₂.nil
  | cons a t ih =>
    exact List.Forall₂.cons (h a (List.mem_cons_self a t))
      (ih fun x hx => h x (List.mem_cons_of_mem a hx))

theorem blockDelete_tombstone_only (spans : List KwTsSpan) (b : Block) :
    BlockTombstoneOnly b (blockDelete spans b).1 := by
  unfold blockDelete BlockTombstoneOnly
  dsimp only
  refine ⟨?_, rfl, rfl, rfl, ?_⟩
  · refine forallTwoMapSelf _ _ _ fun r _ => ?_
    by_cases h : rowQualifies spans r = true
    · rw [if_pos h]
      exact ⟨rfl, rfl, fun _ => rfl⟩
    · rw [if_neg h]
      exact ⟨rfl, rfl, fun hd => hd⟩
  · intro hav
    by_cases hn : 0 < (b.rows.filter (rowQualifies spans)).length
    · rw [if_pos hn] at hav
      exact absurd hav (by simp)
    · rwa [if_neg hn] at hav

theorem partDelete_tombstone_only (spans : List KwTsSpan) (p : Partition) :
    PartTombstoneOnly p (partDelete spans p).1 := by
  unfold partDelete PartTombstoneOnly
  dsimp only
  exact ⟨forallTwoMapSelf _ _ _ fun b _ => blockDelete_tombstone_only spans b,
    rfl, rfl, rfl, rfl⟩

theorem partTombstoneOnlyRefl (p : Partition) : PartTombstoneOnly p p :=
  ⟨forallTwoRefl _ _ fun _ _ =>
    ⟨forallTwoRefl _ _ fun _ _ => ⟨rfl, rfl, fun h => h⟩,
     rfl, rfl, rfl, fun h => h⟩,
   rfl, rfl, rfl, rfl⟩

/-- Removal of the span-range guard: a tombstoned partition stays in (or out
    of) the selected range, since `partDelete` keeps the partition's
    min/max timestamps. -/
theorem partInRange_partDelete (mn mx : Int) (spans : List KwTsSpan)
    (p : Partition) :
    partInRange mn mx (partDelete spans p).1 = partInRange mn mx p := rfl

theorem partDelApply_idem (spans : List KwTsSpan) (p : Partition) :
    partDelApply spans (partDelApply spans p) = partDelApply spans p := by
  unfold partDelApply
  by_cases hin : partInRange ((spansMinTs spans).tdiv 1000)
      ((spansMaxTs spans).tdiv 1000) p = true
  · rw [if_pos hin, if_pos (by rw [partInRange_partDelete]; exact hin)]
    rw [partDelete_idem spans p]
  · simp only [if_neg hin]

theorem partDelCount_idem (spans : List KwTsSpan) (p : Partition) :
    partDelCount spans (partDelApply spans p) = 0 := by
  unfold partDelApply partDelCount
  by_cases hin : partInRange ((spansMinTs spans).tdiv 1000)
      ((spansMaxTs spans).tdiv 1000) p = true
  · rw [if_pos hin, if_pos (by rw [partInRange_partDelete]; exact hin)]
    rw [partDelete_idem spans p]
  · simp only [if_neg hin]

theorem partDelApply_tombstone_only (spans : List KwTsSpan) (p : Partition) :
    PartTombstoneOnly p (partDelApply spans p) := by
  unfold partDelApply
  by_cases hin : partInRange ((spansMinTs spans).tdiv 1000)
      ((spansMaxTs spans).tdiv 1000) p = true
  · rw [if_pos hin]
    exact partDelete_tombstone_only spans p
  · rw [if_neg hin]
    exact partTombstoneOnlyRefl p

theorem deleteData_found_eq (st : EGState) (ptag : Nat)
    (spans : List KwTsSpan) (v : Nat × Nat)
    (h : getEntityIdGroupId st.tagTable ptag = some v) :
    TsEntityGroupDeleteData st ptag spans
      = (KStatus.SUCCESS, (st.parts.map (partDelCount spans)).sum,
         ⟨st.tagTable, st.parts.map (partDelApply spans)⟩) := by
  unfold TsEntityGroupDeleteData
  rw [h]

/-- Claim C6: applying the same `delete_data` call (same primary tag and
    ts_spans) twice yields the same state — hence the same read set — as
    applying it once; the second call returns count 0, so a non-zero count is
    only ever returned by the first call; and deletion only sets bits in the
    deleted bitmap and clears `is_agg_res_available`, never removing or
    altering stored data. -/
theorem delete_data_idempotent (st : EGState) (ptag : Nat)
    (spans : List KwTsSpan) :
    deleteDataState (deleteDataState st ptag spans) ptag spans
        = deleteDataState st ptag spans ∧
    deleteDataCount (deleteDataState st ptag spans) ptag spans = 0 ∧
    (∀ qs, readSet qs (deleteDataState (deleteDataState st ptag spans) ptag spans)
        = readSet qs (deleteDataState st ptag spans)) ∧
    StateTombstoneOnly st (deleteDataState st ptag spans) ∧
    deleteDataStatus st ptag spans = KStatus.SUCCESS := by
  cases h : getEntityIdGroupId st.tagTable ptag with
  | none =>
    have h1 : TsEntityGroupDeleteData st ptag spans = (KStatus.SUCCESS, 0, st) :=
      delete_absent_noop st ptag spans h
    have hst : deleteDataState st ptag spans = st := by
      unfold deleteDataState
      rw [h1]
    rw [hst, hst]
    refine ⟨rfl, ?_, fun _ => rfl,
      ⟨rfl, forallTwoRefl _ _ fun p _ => partTombstoneOnlyRefl p⟩, ?_⟩
    · unfold deleteDataCount
      rw [h1]
    · unfold deleteDataStatus
      rw [h1]
  | some v =>
    have h1 := deleteData_found_eq st ptag spans v h
    have hst : deleteDataState st ptag spans
        = ⟨st.tagTable, st.parts.map (partDelApply spans)⟩ := by
      unfold deleteDataState
      rw [h1]
    have h2 : getEntityIdGroupId
        (⟨st.tagTable, st.parts.map (partDelApply spans)⟩ : EGState).tagTable ptag
          = some v := h
    have h3 := deleteData_found_eq
      ⟨st.tagTable, st.parts.map (partDelApply spans)⟩ ptag spans v h2
    have hparts : (st.parts.map (partDelApply spans)).map (partDelApply spans)
        = st.parts.map (partDelApply spans) := by
      rw [List.map_map]
      exact mapOfCongr _ _ st.parts fun p _ => partDelApply_idem spans p
    have hcnt : ((st.parts.map (partDelApply spans)).map (partDelCount spans)).sum
        = 0 := by
      rw [List.map_map]
      refine sumNatZero _ fun x hx => ?_
      obtain ⟨p, -, rfl⟩ := List.mem_map.mp hx
      exact partDelCount_idem spans p
    refine ⟨?_, ?_, ?_, ?_, ?_⟩
    · rw [hst]
      unfold deleteDataState
      rw [h3]
      dsimp only
      rw [hparts]
    · rw [hst]
      unfold deleteDataCount
      rw [h3]
      dsimp only
      exact hcnt
    · intro qs
      rw [hst]
      unfold deleteDataState
      rw [h3]
      unfold readSet
      dsimp only
      rw [hparts]
    · rw [hst]
      exact ⟨rfl, forallTwoMapSelf _ _ _ fun p _ => partDelApply_tombstone_only spans p⟩
    · unfold deleteDataStatus
      rw [h1]

/-! ### Block layout of a column file (`MMapSegmentTable.h`)

Per column and block:
null bitmap, count (2 bytes), max, min, sum (one cell size each), then
`config_block_rows` value cells (format comment at lines 155-174). -/

/-- The 2-byte count aggregate slot (`BLOCK_AGG_COUNT_SIZE`). -/
def BLOCK_AGG_COUNT_SIZE : Nat := 2

/-- Geometry of one column of a block: the null-bitmap byte count
    (`entity_meta_->getBlockBitmapSize()`) and the column's fixed cell size
    (`hrchy_info_[c].size`). -/
structure ColGeom where
  bitmapBytes : Nat
  cellSize : Nat
  deriving DecidableEq

/-- Embeds `columnAggAddr` (lines 205-226): byte offset of an aggregate slot
    from the block start — the null-bitmap size plus the per-kind
    `agg_offset` of the switch; `none` mirrors the `nullptr` default. -/
def columnAggAddrOff (g : ColGeom) : Sumfunctype → Option Nat
  | .MAX => some (g.bitmapBytes + BLOCK_AGG_COUNT_SIZE)
  | .MIN => some (g.bitmapBytes + (BLOCK_AGG_COUNT_SIZE + g.cellSize))
  | .SUM => some (g.bitmapBytes + (BLOCK_AGG_COUNT_SIZE + g.cellSize * 2))
  | .COUNT => some g.bitmapBytes
  | _ => none

/-- `col_block_header_size_[c]` per the documented block format: null bitmap,
    2-byte count, and max/min/sum of one cell size each. -/
def colBlockHeaderSize (g : ColGeom) : Nat :=
  g.bitmapBytes + BLOCK_AGG_COUNT_SIZE + 3 * g.cellSize

/-- Embeds `columnAddr` (lines 364-368): byte offset of row `r`'s value cell
    from the block start — the column's block-header size plus the cell size
    times `offset_row - 1`. -/
def columnAddrOff (g : ColGeom) (offsetRow : Nat) : Nat :=
  colBlockHeaderSize g + g.cellSize * (offsetRow - 1)

/-- Claim C9: for every column geometry and in-block row index `r ≥ 1`, the
    value cell of row `r` sits at `header(c) + (r-1)·cell(c)` from the block
    start, where `header(c) = bitmap bytes + 2 + aggregate-slot bytes`; the
    aggregate slots follow the null bitmap in the order count (2 bytes), max
    (one cell), min (one cell), sum, and the value area starts right after
    the sum slot; consecutive rows are one cell size apart. -/
theorem column_layout (g : ColGeom) (r : Nat) (hr : 1 ≤ r) :
    columnAddrOff g r = (g.bitmapBytes + 2 + 3 * g.cellSize) + (r - 1) * g.cellSize ∧
    columnAggAddrOff g .COUNT = some g.bitmapBytes ∧
    columnAggAddrOff g .MAX = some (g.bitmapBytes + 2) ∧
    columnAggAddrOff g .MIN = some (g.bitmapBytes + 2 + g.cellSize) ∧
    columnAggAddrOff g .SUM = some (g.bitmapBytes + 2 + 2 * g.cellSize) ∧
    columnAddrOff g 1 = (g.bitmapBytes + 2 + 2 * g.cellSize) + g.cellSize ∧
    columnAddrOff g (r + 1) = columnAddrOff g r + g.cellSize := by
  obtain ⟨n, rfl⟩ : ∃ n, r = n + 1 := ⟨r - 1, (Nat.succ_pred_eq_of_pos hr).symm⟩
  unfold columnAddrOff colBlockHeaderSize columnAggAddrOff BLOCK_AGG_COUNT_SIZE
  refine ⟨?_, rfl, rfl, ?_, ?_, ?_, ?_⟩
  · ring
  · rw [Nat.add_assoc]
  · rw [Nat.add_assoc, Nat.mul_comm]
  · ring
  · simp only [Nat.add_sub_cancel]
    ring

/-- Witness for claim C9 at a concrete geometry (125 bitmap bytes for 1000
    rows, 4-byte cells) and row index 3. -/
theorem column_layout_witness :
    columnAddrOff ⟨125, 4⟩ 3 = (125 + 2 + 3 * 4) + (3 - 1) * 4 ∧
    columnAggAddrOff ⟨125, 4⟩ .COUNT = some 125 ∧
    columnAggAddrOff ⟨125, 4⟩ .MAX = some (125 + 2) ∧
    columnAggAddrOff ⟨125, 4⟩ .MIN = some (125 + 2 + 4) ∧
    columnAggAddrOff ⟨125, 4⟩ .SUM = some (125 + 2 + 2 * 4) ∧
    columnAddrOff ⟨125, 4⟩ 1 = (125 + 2 + 2 * 4) + 4 ∧
    columnAddrOff ⟨125, 4⟩ (3 + 1) = columnAddrOff ⟨125, 4⟩ 3 + 4 :=
  column_layout ⟨125, 4⟩ 3 (by decide)

end KwdbTs
